import Mathlib

/-!
go-concurrent-patterns: fan-out/fan-in and worker pool.

A shallow embedding of `fan-out-fan-in.go` and `workers-pool.go`.

Every goroutine is a small-step program over its control point; a program
state collects the control points of all goroutines together with the
channels they share, and one step of the program is one step of one
goroutine, picked by the scheduler.  A step that cannot be taken (a
blocked channel operation, a goroutine that has returned or was not yet
started) yields `none`.  An execution is a list of scheduler choices.

Modelling choices:

* Go `int` is taken to be 64 bits wide; products wrap in two's complement.
  Loop counters stay far below the bound and are natural numbers.
* A channel operation is atomic.  A `Printf` or `Println` that follows a
  channel operation is taken together with it, and the test of a `for` loop
  with the first statement of its body; `time.Sleep`, with the `Printf` after
  it, is a step of its own.
* A buffered channel is its FIFO buffer, with a send blocked while the buffer
  is full and a receive blocked while it is empty and the channel open.  An
  unbuffered channel is a joint step of its sender and its receiver.
* The program is followed after `main` has returned, so that what the other
  goroutines could still do is visible.
-/

namespace GoInt

/-- Two's complement wrap of a mathematical integer into the 64-bit Go `int`. -/
def wrap (x : Int) : Int :=
  (x + 9223372036854775808) % 18446744073709551616 - 9223372036854775808

/-- Go `a * b` on `int` operands. -/
def mul (a b : Int) : Int := wrap (a * b)

end GoInt

/-! ## Buffered channels (`make(chan int, cap)`) -/

/-- A buffered Go channel of ints, of capacity at least one wherever it is
sent on.  `buf` is the FIFO buffer, head first.  `log` and `closes` are
history variables: every value ever sent, in order, and the number of `close`
calls that succeeded. -/
structure Chan where
  cap : Nat
  buf : List Int
  closed : Bool
  log : List Int
  closes : Nat
deriving DecidableEq, Repr

/-- Outcome of `ch <- v`. -/
inductive SendRes where
  | ok (c : Chan)
  | blocked
  | panic
deriving DecidableEq, Repr

/-- Outcome of `<-ch` (also of one iteration of `range ch`). -/
inductive RecvRes where
  | ok (v : Int) (c : Chan)
  | closedEmpty
  | blocked
deriving DecidableEq, Repr

namespace Chan

/-- The channel `make(chan int, cap)`. -/
def make (cap : Nat) : Chan :=
  { cap := cap, buf := [], closed := false, log := [], closes := 0 }

/-- The send `ch <- v`: panics on a closed channel, blocks on a full buffer. -/
def send (c : Chan) (v : Int) : SendRes :=
  if c.closed then .panic
  else if c.buf.length < c.cap then
    .ok { c with buf := c.buf ++ [v], log := c.log ++ [v] }
  else .blocked

/-- The receive `<-ch`: takes the head of the buffer; on an empty buffer it
reports end-of-stream when the channel is closed and blocks otherwise. -/
def recv (c : Chan) : RecvRes :=
  match c.buf with
  | v :: rest => .ok v { c with buf := rest }
  | [] => if c.closed then .closedEmpty else .blocked

/-- The call `close(ch)`: `none` is the panic on an already closed channel. -/
def close (c : Chan) : Option Chan :=
  if c.closed then none
  else some { c with closed := true, closes := c.closes + 1 }

end Chan

/-! ## fan-out-fan-in.go -/

namespace FanOutFanIn

/-- An operation a goroutine performs on its output channel. -/
inductive ChanOp where
  | send (v : Int)
  | close
deriving DecidableEq, Repr

/-- Control points of `calcola`: at the head of the loop with counter `i`,
or returned. -/
inductive ProdPc where
  | loop (i : Nat)
  | returned
deriving DecidableEq, Repr

/-- The loop bound of `calcola` in the source (`i < 5`). -/
def calcolaCount : Nat := 5

/-- The number of values `main` reads from `c` (`i < 10`). -/
def mainReads : Nat := 10

/-- One step of `calcola(id, out)`, with the loop bound as a parameter:
at the loop head, if `i < count` the step is the send `out <- id * i`
followed by `i++`, otherwise the function returns.  The first component is
the operation performed on `out`, if any. -/
def calcola (count : Nat) (id : Int) : ProdPc → Option (Option ChanOp × ProdPc)
  | .loop i =>
    if i < count then some (some (.send (GoInt.mul id i)), .loop (i + 1))
    else some (none, .returned)
  | .returned => none

/-- Runs `calcola` alone against a receiver that is always ready, for at most
`fuel` steps: the operations performed on `out` and the control point
reached. -/
def runCalcola (count : Nat) (id : Int) : Nat → ProdPc → List ChanOp × ProdPc
  | 0, pc => ([], pc)
  | fuel + 1, pc =>
    match calcola count id pc with
    | none => ([], pc)
    | some (op, pc') =>
      let r := runCalcola count id fuel pc'
      (op.toList ++ r.1, r.2)

/-- Control points of `raccogliRisultati`: waiting in the `select`, or
holding a received value `v` that is about to be sent on `c`. -/
inductive MergePc where
  | selecting
  | forwarding (v : Int)
deriving DecidableEq, Repr

/-- The receive half of `raccogliRisultati`: either case of the `select`
(`v := <-c1` or `v := <-c2`) takes `v` and moves on to `c <- v`. -/
def raccogliRisultatiRecv : MergePc → Int → Option MergePc
  | .selecting, v => some (.forwarding v)
  | .forwarding _, _ => none

/-- The send half of `raccogliRisultati`: `c <- v`, then back to the `select`
(the `for` loop has no exit). -/
def raccogliRisultatiSend : MergePc → Option (Int × MergePc)
  | .forwarding v => some (v, .selecting)
  | .selecting => none

/-- Control points of `main`: the three `go` statements, the read loop with
counter `i`, returned. -/
inductive MainPc where
  | goCalcola1
  | goCalcola2
  | goRaccogli
  | reading (i : Nat)
  | returned
deriving DecidableEq, Repr

/-- Program state.  `c1`, `c2` and `c` are unbuffered and never closed, so
they carry no state of their own: a communication on one of them is a joint
step of its sender and its receiver.  A goroutine that was not started yet is
`none`.  `printed` is what `fmt.Println(<-c)` has written so far. -/
structure State where
  main : MainPc
  prod1 : Option ProdPc
  prod2 : Option ProdPc
  merger : Option MergePc
  printed : List Int
deriving DecidableEq, Repr

/-- The scheduler's choices: a local step of `main` or of a producer, or a
communication on `c1`, `c2` or `c`. -/
inductive Action where
  | main
  | prod1
  | prod2
  | c1
  | c2
  | c
deriving DecidableEq, Repr

/-- The constants of the program: the two producer identities, the loop bound
of `calcola` and the number of reads of `main`. -/
structure Config where
  id1 : Int
  id2 : Int
  count : Nat
  reads : Nat
deriving DecidableEq, Repr

/-- The constants written in the source. -/
def sourceConfig : Config :=
  { id1 := 2, id2 := 3, count := calcolaCount, reads := mainReads }

/-- State at entry of `main`. -/
def init : State :=
  { main := .goCalcola1, prod1 := none, prod2 := none, merger := none, printed := [] }

/-- A local step of `main`: one of the `go` statements, or leaving the read
loop once `i < reads` fails.  Inside the loop `main` waits on `c`. -/
def main (cfg : Config) (s : State) : Option State :=
  match s.main with
  | .goCalcola1 => some { s with prod1 := some (.loop 0), main := .goCalcola2 }
  | .goCalcola2 => some { s with prod2 := some (.loop 0), main := .goRaccogli }
  | .goRaccogli => some { s with merger := some .selecting, main := .reading 0 }
  | .reading i => if i < cfg.reads then none else some { s with main := .returned }
  | .returned => none

/-- A step of a started producer that performs no channel operation. -/
def silent (count : Nat) (id : Int) (p : Option ProdPc) : Option ProdPc :=
  match p with
  | none => none
  | some pc =>
    match calcola count id pc with
    | some (none, pc') => some pc'
    | _ => none

/-- A communication from a started producer to the merger waiting in its
`select`: the new producer and merger control points. -/
def handoff (count : Nat) (id : Int) (p : Option ProdPc) (m : Option MergePc) :
    Option (ProdPc × MergePc) :=
  match p, m with
  | some pc, some mpc =>
    match calcola count id pc with
    | some (some (.send v), pc') =>
      match raccogliRisultatiRecv mpc v with
      | some mpc' => some (pc', mpc')
      | none => none
    | _ => none
  | _, _ => none

/-- One step of the program. -/
def step (cfg : Config) (a : Action) (s : State) : Option State :=
  match a with
  | .main => main cfg s
  | .prod1 =>
    match silent cfg.count cfg.id1 s.prod1 with
    | some pc' => some { s with prod1 := some pc' }
    | none => none
  | .prod2 =>
    match silent cfg.count cfg.id2 s.prod2 with
    | some pc' => some { s with prod2 := some pc' }
    | none => none
  | .c1 =>
    match handoff cfg.count cfg.id1 s.prod1 s.merger with
    | some (pc', mpc') => some { s with prod1 := some pc', merger := some mpc' }
    | none => none
  | .c2 =>
    match handoff cfg.count cfg.id2 s.prod2 s.merger with
    | some (pc', mpc') => some { s with prod2 := some pc', merger := some mpc' }
    | none => none
  | .c =>
    match s.merger, s.main with
    | some mpc, .reading i =>
      if i < cfg.reads then
        match raccogliRisultatiSend mpc with
        | some (v, mpc') =>
          some { s with merger := some mpc', printed := s.printed ++ [v],
                        main := .reading (i + 1) }
        | none => none
      else none
    | _, _ => none

/-- Runs a schedule; `none` when one of its actions is not enabled. -/
def run (cfg : Config) : List Action → State → Option State
  | [], s => some s
  | a :: as, s =>
    match step cfg a s with
    | some s' => run cfg as s'
    | none => none

/-- The states some schedule reaches from the initial state. -/
def Reachable (cfg : Config) (s : State) : Prop :=
  ∃ as, run cfg as init = some s

/-- No action is enabled. -/
def Stuck (cfg : Config) (s : State) : Prop :=
  ∀ a, step cfg a s = none

/-- The first `k` values of the stream of the producer with identity `id`. -/
def stream (id : Int) (k : Nat) : List Int :=
  (List.range k).map fun (i : Nat) => GoInt.mul id (i : Int)

/-- The list `zs` is an interleaving of `xs` and `ys`: it consists of the
elements of both, each list in its own order. -/
inductive Interleave : List Int → List Int → List Int → Prop where
  | nil : Interleave [] [] []
  | left (x : Int) {xs ys zs : List Int} :
      Interleave xs ys zs → Interleave (x :: xs) ys (x :: zs)
  | right (y : Int) {xs ys zs : List Int} :
      Interleave xs ys zs → Interleave xs (y :: ys) (y :: zs)

end FanOutFanIn

/-! ## workers-pool.go -/

namespace WorkersPool

/-- The constant `numLavori` of the source. -/
def numLavori : Nat := 5

/-- The constant `numWorker` of the source. -/
def numWorker : Nat := 3

/-- The work of a worker on a job: `lavoro * 2`. -/
def workFn (lavoro : Int) : Int := GoInt.mul lavoro 2

/-- Control points of `worker`: at `range lavori`, between the two `Printf`
calls (the simulated work), at `risultati <- lavoro * 2`, or left the loop. -/
inductive WorkerPc where
  | claiming
  | executing (lavoro : Int)
  | publishing (lavoro : Int)
  | exited
deriving DecidableEq, Repr

/-- Control points of `main`: the loop starting the workers, the loop
submitting the jobs, `close(lavori)`, the loop collecting the results,
returned.  The loops carry their counter. -/
inductive MainPc where
  | spawn (i : Nat)
  | submit (j : Nat)
  | closing
  | collect (i : Nat)
  | returned
deriving DecidableEq, Repr

/-- Program state.  The worker started as `worker(i, ...)` is `workers[i-1]`.
`started` is the list of `(id, lavoro)` of the lines
`Worker id: inizio lavoro lavoro` printed so far, `received` the list of the
values of the lines `Risultato: result`.  `fault` is set by a run-time panic
(send on or close of a closed channel), which ends the program. -/
structure State where
  main : MainPc
  workers : List WorkerPc
  lavori : Chan
  risultati : Chan
  started : List (Nat × Int)
  received : List Int
  fault : Bool
deriving DecidableEq, Repr

/-- The scheduler's choices: a step of `main`, or of the worker at index `k`
(the worker with id `k + 1`). -/
inductive Action where
  | main
  | worker (k : Nat)
deriving DecidableEq, Repr

/-- State at the first `go` loop of `main`, both channels made with capacity
`numLavori`. -/
def init (numLavori : Nat) : State :=
  { main := .spawn 1, workers := [], lavori := Chan.make numLavori,
    risultati := Chan.make numLavori, started := [], received := [], fault := false }

/-- One step of `main`, with the two constants as parameters. -/
def main (numLavori numWorker : Nat) (s : State) : Option State :=
  match s.main with
  | .spawn i =>
    if i ≤ numWorker then
      some { s with workers := s.workers ++ [.claiming], main := .spawn (i + 1) }
    else some { s with main := .submit 1 }
  | .submit j =>
    if j ≤ numLavori then
      match s.lavori.send j with
      | .ok c => some { s with lavori := c, main := .submit (j + 1) }
      | .blocked => none
      | .panic => some { s with fault := true }
    else some { s with main := .closing }
  | .closing =>
    match s.lavori.close with
    | some c => some { s with lavori := c, main := .collect 1 }
    | none => some { s with fault := true }
  | .collect i =>
    if i ≤ numLavori then
      match s.risultati.recv with
      | .ok v c =>
        some { s with risultati := c, received := s.received ++ [v],
                      main := .collect (i + 1) }
      | .closedEmpty =>
        some { s with received := s.received ++ [0], main := .collect (i + 1) }
      | .blocked => none
    else some { s with main := .returned }
  | .returned => none

/-- One step of the worker at index `k` (`worker(k + 1, lavori, risultati)`). -/
def worker (k : Nat) (s : State) : Option State :=
  match s.workers[k]? with
  | none => none
  | some .claiming =>
    match s.lavori.recv with
    | .ok lavoro c =>
      some { s with lavori := c, workers := s.workers.set k (.executing lavoro),
                    started := s.started ++ [(k + 1, lavoro)] }
    | .closedEmpty => some { s with workers := s.workers.set k .exited }
    | .blocked => none
  | some (.executing lavoro) =>
    some { s with workers := s.workers.set k (.publishing lavoro) }
  | some (.publishing lavoro) =>
    match s.risultati.send (workFn lavoro) with
    | .ok c => some { s with risultati := c, workers := s.workers.set k .claiming }
    | .blocked => none
    | .panic => some { s with fault := true }
  | some .exited => none

/-- One step of the program; nothing runs after a panic. -/
def step (numLavori numWorker : Nat) (a : Action) (s : State) : Option State :=
  if s.fault then none
  else
    match a with
    | .main => main numLavori numWorker s
    | .worker k => worker k s

/-- Runs a schedule; `none` when one of its actions is not enabled. -/
def run (numLavori numWorker : Nat) : List Action → State → Option State
  | [], s => some s
  | a :: as, s =>
    match step numLavori numWorker a s with
    | some s' => run numLavori numWorker as s'
    | none => none

/-- The states some schedule reaches from the initial state. -/
def Reachable (numLavori numWorker : Nat) (s : State) : Prop :=
  ∃ as, run numLavori numWorker as (init numLavori) = some s

/-- No action is enabled. -/
def Stuck (numLavori numWorker : Nat) (s : State) : Prop :=
  ∀ a, step numLavori numWorker a s = none

/-- The jobs `1, ..., n` in submission order. -/
def jobsUpTo (n : Nat) : List Int :=
  (List.range n).map fun (i : Nat) => (i : Int) + 1

/-- The job a worker holds at a control point, if any. -/
def holding : WorkerPc → Option Int
  | .executing lavoro => some lavoro
  | .publishing lavoro => some lavoro
  | _ => none

/-- The jobs currently held by the workers. -/
def held (ws : List WorkerPc) : List Int := ws.filterMap holding

/-- What the control point of `main` says about the rest of the state. -/
def MainOK (numLavori numWorker : Nat) (s : State) : Prop :=
  match s.main with
  | .spawn i =>
    i ≤ numWorker + 1 ∧ s.workers.length + 1 = i ∧ s.lavori.log = [] ∧
      s.lavori.closed = false ∧ s.lavori.closes = 0 ∧ s.received = []
  | .submit j =>
    j ≤ numLavori + 1 ∧ s.workers.length = numWorker ∧
      s.lavori.log.length + 1 = j ∧ s.lavori.log = jobsUpTo (j - 1) ∧
      s.lavori.closed = false ∧ s.lavori.closes = 0 ∧ s.received = []
  | .closing =>
    s.workers.length = numWorker ∧ s.lavori.log = jobsUpTo numLavori ∧
      s.lavori.closed = false ∧ s.lavori.closes = 0 ∧ s.received = []
  | .collect i =>
    i ≤ numLavori + 1 ∧ s.workers.length = numWorker ∧ s.lavori.log = jobsUpTo numLavori ∧
      s.lavori.closed = true ∧ s.lavori.closes = 1 ∧ s.received.length + 1 = i
  | .returned =>
    s.workers.length = numWorker ∧ s.lavori.log = jobsUpTo numLavori ∧
      s.lavori.closed = true ∧ s.lavori.closes = 1 ∧ s.received.length = numLavori

/-- The flow of the jobs through the program, where `c` jobs were claimed so
far and `pj` are the jobs whose result was published, in publishing order:
the job queue is first-in first-out, the claimed jobs are `1, ..., c`, each
claimed job is held by a worker or published, the results queue is first-in
first-out, and the job published at position `p` is at most `p + numWorker`. -/
def Flow (numWorker : Nat) (s : State) (c : Nat) (pj : List Int) : Prop :=
  s.lavori.log = jobsUpTo c ++ s.lavori.buf ∧
  s.started.map Prod.snd = jobsUpTo c ∧
  s.risultati.log = pj.map workFn ∧
  s.risultati.log = s.received ++ s.risultati.buf ∧
  (pj ++ held s.workers).Perm (jobsUpTo c) ∧
  (∀ (p : Nat) (k : Int), pj[p]? = some k → k ≤ (p : Int) + numWorker)

/-- The inductive invariant of the worker-pool program. -/
def Inv (numLavori numWorker : Nat) (s : State) : Prop :=
  s.fault = false ∧ s.lavori.cap = numLavori ∧ s.risultati.cap = numLavori ∧
  s.risultati.closed = false ∧ s.risultati.closes = 0 ∧
  MainOK numLavori numWorker s ∧
  (∃ c pj, Flow numWorker s c pj) ∧
  (∀ k : Nat, s.workers[k]? = some WorkerPc.exited → s.lavori.closed = true ∧ s.lavori.buf = [])

/-- Steps `main` still has to take from a control point, weighted so that
starting a worker and submitting a job pay for the steps they cause. -/
def mainRank (numLavori numWorker : Nat) : MainPc → Nat
  | .spawn i => 2 * (numWorker + 1 - i) + 5 * numLavori + 5
  | .submit j => 4 * (numLavori + 1 - j) + numLavori + 4
  | .closing => numLavori + 3
  | .collect i => (numLavori + 1 - i) + 1
  | .returned => 0

/-- Steps a worker still has to take from a control point when the job queue
holds nothing for it. -/
def workerRank : WorkerPc → Nat
  | .claiming => 1
  | .executing _ => 3
  | .publishing _ => 2
  | .exited => 0

/-- A bound on the number of steps the program can still take. -/
def rank (numLavori numWorker : Nat) (s : State) : Nat :=
  if s.fault then 0
  else 1 + mainRank numLavori numWorker s.main + (s.workers.map workerRank).sum +
    3 * s.lavori.buf.length

end WorkersPool

namespace FanOutFanIn

/-- The number of values a producer has sent so far, read off its control
point. -/
def sentCount (count : Nat) : Option ProdPc → Nat
  | none => 0
  | some (.loop i) => i
  | some .returned => count

/-- The merged stream so far, seen from the merger: when the merger waits in
its `select`, what was printed is an interleaving of what the two producers
sent; when it holds a value, that value is the last one sent by one of the
producers and what was printed is an interleaving of the rest. -/
def Merged (cfg : Config) (s : State) : Prop :=
  match s.merger with
  | some (.forwarding v) =>
    (∃ a, sentCount cfg.count s.prod1 = a + 1 ∧ v = GoInt.mul cfg.id1 a ∧
      Interleave (stream cfg.id1 a) (stream cfg.id2 (sentCount cfg.count s.prod2)) s.printed) ∨
    (∃ b, sentCount cfg.count s.prod2 = b + 1 ∧ v = GoInt.mul cfg.id2 b ∧
      Interleave (stream cfg.id1 (sentCount cfg.count s.prod1)) (stream cfg.id2 b) s.printed)
  | _ =>
    Interleave (stream cfg.id1 (sentCount cfg.count s.prod1))
      (stream cfg.id2 (sentCount cfg.count s.prod2)) s.printed

/-- What the control point of `main` says about the rest of the state. -/
def MainOK (cfg : Config) (s : State) : Prop :=
  match s.main with
  | .goCalcola1 => s.prod1 = none ∧ s.prod2 = none ∧ s.merger = none ∧ s.printed = []
  | .goCalcola2 => s.prod1 ≠ none ∧ s.prod2 = none ∧ s.merger = none ∧ s.printed = []
  | .goRaccogli => s.prod1 ≠ none ∧ s.prod2 ≠ none ∧ s.merger = none ∧ s.printed = []
  | .reading i =>
    s.prod1 ≠ none ∧ s.prod2 ≠ none ∧ s.merger ≠ none ∧ s.printed.length = i ∧ i ≤ cfg.reads
  | .returned =>
    s.prod1 ≠ none ∧ s.prod2 ≠ none ∧ s.merger ≠ none ∧ s.printed.length = cfg.reads

/-- The inductive invariant of the fan-in program. -/
def Inv (cfg : Config) (s : State) : Prop :=
  sentCount cfg.count s.prod1 ≤ cfg.count ∧ sentCount cfg.count s.prod2 ≤ cfg.count ∧
  Merged cfg s ∧ MainOK cfg s

end FanOutFanIn

/-! ## Sample executions -/

namespace FanOutFanIn

/-- A complete schedule of the fan-in program: the first producer is served
first, then the second one. -/
def sampleSchedule : List Action :=
  [.main, .main, .main, .c1, .c, .c2, .c, .c1, .c, .c1, .c, .c1, .c, .c1, .c,
   .c2, .c, .c2, .c, .c2, .c, .c2, .c, .main, .prod1, .prod2]

/-- The state `sampleSchedule` ends in. -/
def sampleFinal : State :=
  { main := .returned, prod1 := some .returned, prod2 := some .returned,
    merger := some .selecting, printed := [0, 0, 2, 4, 6, 8, 3, 6, 9, 12] }

/-- A schedule that stops after three values were printed, the merger holding
a fourth one. -/
def sampleMidSchedule : List Action :=
  [.main, .main, .main, .c2, .c, .c1, .c, .c2, .c, .c2]

/-- The state `sampleMidSchedule` ends in. -/
def sampleMid : State :=
  { main := .reading 3, prod1 := some (.loop 1), prod2 := some (.loop 3),
    merger := some (.forwarding 6), printed := [0, 0, 3] }

end FanOutFanIn

namespace WorkersPool

/-- A complete schedule of the worker pool in which the first worker takes
the first two jobs and the results arrive in submission order. -/
def scheduleInOrder : List Action :=
  [.main, .main, .main, .main, .main, .main, .main, .main, .main, .main, .main,
   .worker 0, .worker 0, .worker 0, .worker 0, .worker 0, .worker 0,
   .worker 1, .worker 1, .worker 1, .worker 2, .worker 2, .worker 2,
   .worker 0, .worker 0, .worker 0, .worker 0, .worker 1, .worker 2,
   .main, .main, .main, .main, .main, .main]

/-- The state `scheduleInOrder` ends in. -/
def finalInOrder : State :=
  { main := .returned, workers := [.exited, .exited, .exited],
    lavori := { cap := 5, buf := [], closed := true, log := [1, 2, 3, 4, 5], closes := 1 },
    risultati := { cap := 5, buf := [], closed := false, log := [2, 4, 6, 8, 10], closes := 0 },
    started := [(1, 1), (1, 2), (2, 3), (3, 4), (1, 5)],
    received := [2, 4, 6, 8, 10], fault := false }

/-- A complete schedule of the worker pool in which the second worker
publishes the result of job 2 before the first worker publishes that of
job 1. -/
def scheduleSwapped : List Action :=
  [.main, .main, .main, .main, .main, .main,
   .worker 0, .worker 1, .worker 1, .worker 1, .worker 0, .worker 0,
   .main, .main, .main, .main, .main,
   .worker 0, .worker 0, .worker 0, .worker 0, .worker 0, .worker 0,
   .worker 0, .worker 0, .worker 0, .worker 0, .worker 1, .worker 2,
   .main, .main, .main, .main, .main, .main]

/-- The state `scheduleSwapped` ends in. -/
def finalSwapped : State :=
  { main := .returned, workers := [.exited, .exited, .exited],
    lavori := { cap := 5, buf := [], closed := true, log := [1, 2, 3, 4, 5], closes := 1 },
    risultati := { cap := 5, buf := [], closed := false, log := [4, 2, 6, 8, 10], closes := 0 },
    started := [(1, 1), (2, 2), (1, 3), (1, 4), (1, 5)],
    received := [4, 2, 6, 8, 10], fault := false }

/-- A schedule that stops in the middle: all jobs submitted, job 1 published,
job 2 held by the second worker that is about to publish, job 3 held by the
third worker. -/
def scheduleMid : List Action :=
  [.main, .main, .main, .main, .main, .main, .main, .main, .main,
   .worker 0, .worker 1, .worker 2, .worker 0, .worker 0, .worker 1]

/-- The state `scheduleMid` ends in. -/
def stateMid : State :=
  { main := .submit 6, workers := [.claiming, .publishing 2, .executing 3],
    lavori := { cap := 5, buf := [4, 5], closed := false, log := [1, 2, 3, 4, 5], closes := 0 },
    risultati := { cap := 5, buf := [2], closed := false, log := [2], closes := 0 },
    started := [(1, 1), (2, 2), (3, 3)],
    received := [], fault := false }

end WorkersPool


/-! # Proofs -/

namespace GoInt
theorem wrap_eq_self (x : Int) (h1 : -9223372036854775808 ≤ x) (h2 : x < 9223372036854775808) :
    wrap x = x := by
  unfold wrap; omega
end GoInt

namespace FanOutFanIn

theorem runCalcola_loop (count : Nat) (id : Int) :
    ∀ (k i fuel : Nat), i + k = count → k + 1 ≤ fuel →
      runCalcola count id fuel (.loop i) =
        ((List.range' i k).map (fun (j : Nat) => ChanOp.send (GoInt.mul id (j : Int))), .returned) := by
  intro k
  induction k with
  | zero =>
    intro i fuel hi hf
    obtain ⟨f, rfl⟩ : ∃ f, fuel = f + 1 := ⟨fuel - 1, by omega⟩
    have hlt : ¬ i < count := by omega
    cases f <;> simp [runCalcola, calcola, hlt]
  | succ k ih =>
    intro i fuel hi hf
    obtain ⟨f, rfl⟩ : ∃ f, fuel = f + 1 := ⟨fuel - 1, by omega⟩
    have hlt : i < count := by omega
    have := ih (i + 1) f (by omega) (by omega)
    simp [runCalcola, calcola, hlt, this, List.range']

theorem Interleave.snoc_left {xs ys zs : List Int} (h : Interleave xs ys zs) (x : Int) :
    Interleave (xs ++ [x]) ys (zs ++ [x]) := by
  induction h with
  | nil => exact Interleave.left x Interleave.nil
  | left a _ ih => exact Interleave.left a ih
  | right b _ ih => exact Interleave.right b ih

theorem Interleave.snoc_right {xs ys zs : List Int} (h : Interleave xs ys zs) (y : Int) :
    Interleave xs (ys ++ [y]) (zs ++ [y]) := by
  induction h with
  | nil => exact Interleave.right y Interleave.nil
  | left a _ ih => exact Interleave.left a ih
  | right b _ ih => exact Interleave.right b ih

theorem Interleave.length_eq {xs ys zs : List Int} (h : Interleave xs ys zs) :
    zs.length = xs.length + ys.length := by
  induction h with
  | nil => rfl
  | left a _ ih => simp [ih]; omega
  | right b _ ih => simp [ih]; omega

theorem Interleave.perm {xs ys zs : List Int} (h : Interleave xs ys zs) :
    zs.Perm (xs ++ ys) := by
  induction h with
  | nil => exact List.Perm.refl _
  | left a _ ih => exact List.Perm.cons a ih
  | right b _ ih =>
    exact (List.Perm.cons b ih).trans List.perm_middle.symm

theorem Interleave.sublist_left {xs ys zs : List Int} (h : Interleave xs ys zs) :
    xs.Sublist zs := by
  induction h with
  | nil => exact List.Sublist.refl _
  | left a _ ih => exact List.Sublist.cons₂ a ih
  | right b _ ih => exact List.Sublist.cons b ih

theorem Interleave.sublist_right {xs ys zs : List Int} (h : Interleave xs ys zs) :
    ys.Sublist zs := by
  induction h with
  | nil => exact List.Sublist.refl _
  | left a _ ih => exact List.Sublist.cons a ih
  | right b _ ih => exact List.Sublist.cons₂ b ih

theorem stream_succ (id : Int) (k : Nat) :
    stream id (k + 1) = stream id k ++ [GoInt.mul id k] := by
  simp [stream, List.range_succ]

theorem stream_length (id : Int) (k : Nat) : (stream id k).length = k := by
  simp [stream]

/-- C3. Producer stream: for every identity `id` and every loop bound `n`,
`calcola` run to the end (any fuel above `n`) performs on its output channel
exactly the sends of `id * 0, id * 1, ..., id * (n - 1)` as Go int products,
in this order, performs no close, and has returned; each product is the
mathematical one whenever that fits a Go int; for the bound 5 of the source
the sends are those of `id * 0, ..., id * 4`. -/
theorem calcola_stream (id : Int) (n fuel : Nat) (hfuel : n + 1 ≤ fuel) :
    runCalcola n id fuel (.loop 0) =
      ((List.range n).map (fun (i : Nat) => ChanOp.send (GoInt.mul id (i : Int))),
        .returned) ∧
    ChanOp.close ∉ (runCalcola n id fuel (.loop 0)).1 ∧
    (∀ i : Nat, i < n → -9223372036854775808 ≤ id * i → id * i < 9223372036854775808 →
      GoInt.mul id i = id * i) ∧
    (n = calcolaCount →
      runCalcola n id fuel (.loop 0) =
        ([.send (GoInt.mul id 0), .send (GoInt.mul id 1), .send (GoInt.mul id 2),
          .send (GoInt.mul id 3), .send (GoInt.mul id 4)], .returned)) := by
  have hrun : runCalcola n id fuel (.loop 0) =
      ((List.range n).map (fun (i : Nat) => ChanOp.send (GoInt.mul id (i : Int))),
        .returned) := by
    rw [runCalcola_loop n id n 0 fuel (by omega) hfuel, List.range_eq_range']
  refine ⟨hrun, ?_, ?_, ?_⟩
  · rw [hrun]
    simp
  · intro i _ h1 h2
    exact GoInt.wrap_eq_self _ h1 h2
  · intro hn
    rw [hrun, hn]
    rfl

/-- The producer with identity 2 and the loop bound of the source. -/
theorem calcola_stream_witness :
    5 + 1 ≤ 6 ∧
    runCalcola 5 2 6 (.loop 0) =
      ([.send 0, .send 2, .send 4, .send 6, .send 8], .returned) :=
  ⟨by decide, (calcola_stream 2 5 6 (by decide)).1.trans (by decide)⟩


theorem silent_eq_some {count : Nat} {id : Int} {p : Option ProdPc} {pc' : ProdPc}
    (h : silent count id p = some pc') :
    ∃ i, p = some (.loop i) ∧ ¬ i < count ∧ pc' = .returned := by
  rcases p with _ | (i | _)
  · simp [silent] at h
  · by_cases hlt : i < count
    · simp [silent, calcola, hlt] at h
    · simp [silent, calcola, hlt] at h
      exact ⟨i, rfl, hlt, h.symm⟩
  · simp [silent, calcola] at h

theorem handoff_eq_some {count : Nat} {id : Int} {p : Option ProdPc} {m : Option MergePc}
    {r : ProdPc × MergePc} (h : handoff count id p m = some r) :
    ∃ i, p = some (.loop i) ∧ i < count ∧ m = some .selecting ∧
      r = (.loop (i + 1), .forwarding (GoInt.mul id i)) := by
  rcases p with _ | (i | _)
  · simp [handoff] at h
  · rcases m with _ | (_ | v)
    · simp [handoff] at h
    · by_cases hlt : i < count
      · simp [handoff, calcola, hlt, raccogliRisultatiRecv] at h
        exact ⟨i, rfl, hlt, rfl, h.symm⟩
      · simp [handoff, calcola, hlt] at h
    · by_cases hlt : i < count
      · simp [handoff, calcola, hlt, raccogliRisultatiRecv] at h
      · simp [handoff, calcola, hlt] at h
  · rcases m with _ | m <;> simp [handoff, calcola] at h

theorem fan_inv_init (cfg : Config) : Inv cfg init := by
  refine ⟨by simp [init, sentCount], by simp [init, sentCount], ?_, ?_⟩
  · simp [Merged, init, sentCount, stream]; exact Interleave.nil
  · simp [MainOK, init]

theorem fan_inv_step (cfg : Config) (a : Action) (s s' : State)
    (hinv : Inv cfg s) (hstep : step cfg a s = some s') : Inv cfg s' := by
  obtain ⟨h1, h2, hm, hmain⟩ := hinv
  rcases s with ⟨mn, p1, p2, mg, pr⟩
  dsimp only at h1 h2
  cases a
  case main =>
    simp only [step, main] at hstep
    cases mn <;> simp at hstep
    case goCalcola1 =>
      subst hstep
      simp_all [Inv, MainOK, Merged, sentCount, stream]
    case goCalcola2 =>
      subst hstep
      simp_all [Inv, MainOK, Merged, sentCount, stream]
    case goRaccogli =>
      subst hstep
      simp_all [Inv, MainOK, Merged, sentCount, stream]
    case reading i =>
      obtain ⟨hi, rfl⟩ := hstep
      simp_all [Inv, MainOK, Merged, sentCount, stream]
      omega
  case prod1 =>
    simp only [step] at hstep
    split at hstep <;> simp at hstep
    rename_i pc' hs
    obtain ⟨i, rfl, hlt, rfl⟩ := silent_eq_some hs
    subst hstep
    have hi : i = cfg.count := by simp [sentCount] at h1; omega
    subst hi
    refine ⟨by simp [sentCount], h2, ?_, ?_⟩
    · simpa [Merged, sentCount] using hm
    · cases mn <;> simp_all [MainOK]
  case prod2 =>
    simp only [step] at hstep
    split at hstep <;> simp at hstep
    rename_i pc' hs
    obtain ⟨i, rfl, hlt, rfl⟩ := silent_eq_some hs
    subst hstep
    have hi : i = cfg.count := by simp [sentCount] at h2; omega
    subst hi
    refine ⟨h1, by simp [sentCount], ?_, ?_⟩
    · simpa [Merged, sentCount] using hm
    · cases mn <;> simp_all [MainOK]
  case c1 =>
    simp only [step] at hstep
    split at hstep <;> simp at hstep
    rename_i pc' mpc' hs
    obtain ⟨i, rfl, hlt, rfl, hr⟩ := handoff_eq_some hs
    simp only [Prod.mk.injEq] at hr
    obtain ⟨rfl, rfl⟩ := hr
    subst hstep
    refine ⟨by simp [sentCount]; omega, h2, ?_, ?_⟩
    · simp only [Merged, sentCount] at hm ⊢
      exact Or.inl ⟨i, rfl, rfl, hm⟩
    · cases mn <;> simp_all [MainOK]
  case c2 =>
    simp only [step] at hstep
    split at hstep <;> simp at hstep
    rename_i pc' mpc' hs
    obtain ⟨i, rfl, hlt, rfl, hr⟩ := handoff_eq_some hs
    simp only [Prod.mk.injEq] at hr
    obtain ⟨rfl, rfl⟩ := hr
    subst hstep
    refine ⟨h1, by simp [sentCount]; omega, ?_, ?_⟩
    · simp only [Merged, sentCount] at hm ⊢
      exact Or.inr ⟨i, rfl, rfl, hm⟩
    · cases mn <;> simp_all [MainOK]
  case c =>
    simp only [step] at hstep
    rcases mg with _ | (_ | v) <;> cases mn <;> simp [raccogliRisultatiSend] at hstep
    rename_i i
    obtain ⟨hlt, rfl⟩ := hstep
    refine ⟨h1, h2, ?_, ?_⟩
    · simp only [Merged] at hm ⊢
      rcases hm with ⟨a, ha, rfl, hil⟩ | ⟨b, hb, rfl, hil⟩
      · rw [ha, stream_succ]
        exact hil.snoc_left _
      · rw [hb, stream_succ]
        exact hil.snoc_right _
    · simp_all [MainOK]
      omega

theorem fan_inv_run (cfg : Config) (as : List Action) :
    ∀ s s', Inv cfg s → run cfg as s = some s' → Inv cfg s' := by
  induction as with
  | nil => intro s s' h hr; simp [run] at hr; exact hr ▸ h
  | cons a as ih =>
    intro s s' h hr
    simp only [run] at hr
    split at hr
    · rename_i s1 hs1
      exact ih s1 s' (fan_inv_step cfg a s s1 h hs1) hr
    · simp at hr

theorem fan_inv_of_reachable (cfg : Config) (s : State) (h : Reachable cfg s) : Inv cfg s := by
  obtain ⟨as, hr⟩ := h
  exact fan_inv_run cfg as init s (fan_inv_init cfg) hr


theorem stream_take (id : Int) (a n : Nat) (h : a ≤ n) :
    (stream id n).take a = stream id a := by
  simp [stream, ← List.map_take, List.take_range, Nat.min_eq_left h]

theorem stream_two : stream 2 5 = [0, 2, 4, 6, 8] := by decide

theorem stream_three : stream 3 5 = [0, 3, 6, 9, 12] := by decide

/-- What was printed is an interleaving of what the producers sent, less the
value the merger may still hold. -/
theorem printed_interleave (cfg : Config) (s : State) (h : Inv cfg s) :
    ∃ a b, a ≤ cfg.count ∧ b ≤ cfg.count ∧
      a ≤ sentCount cfg.count s.prod1 ∧ b ≤ sentCount cfg.count s.prod2 ∧
      sentCount cfg.count s.prod1 + sentCount cfg.count s.prod2 ≤ a + b + 1 ∧
      (s.merger = some .selecting →
        a = sentCount cfg.count s.prod1 ∧ b = sentCount cfg.count s.prod2) ∧
      (∀ v, s.merger = some (.forwarding v) →
        sentCount cfg.count s.prod1 + sentCount cfg.count s.prod2 = a + b + 1) ∧
      Interleave (stream cfg.id1 a) (stream cfg.id2 b) s.printed := by
  obtain ⟨h1, h2, hm, -⟩ := h
  unfold Merged at hm
  split at hm
  · rename_i v hv
    rcases hm with ⟨a, ha, -, hil⟩ | ⟨b, hb, -, hil⟩
    · exact ⟨a, _, by omega, h2, by omega, le_refl _, by omega, by simp [hv],
        fun _ _ => by omega, hil⟩
    · exact ⟨_, b, h1, by omega, le_refl _, by omega, by omega, by simp [hv],
        fun _ _ => by omega, hil⟩
  · rename_i hne
    exact ⟨_, _, h1, h2, le_refl _, le_refl _, by omega, fun _ => ⟨rfl, rfl⟩,
      fun v hv => absurd hv (hne v), hm⟩

theorem fanIn_merge_bound (s : State) (hinv : Inv sourceConfig s) :
    s.printed.length ≤ 10 := by
  obtain ⟨a, b, ha, hb, -, -, -, -, -, hil⟩ := printed_interleave _ s hinv
  have ha5 : a ≤ 5 := ha
  have hb5 : b ≤ 5 := hb
  have hlen := hil.length_eq
  simp only [stream_length] at hlen
  omega

/-- C2. Fan-in merge is a lossless, duplicate-free interleaving: in every
reachable state of the fan-in program of the source, what `main` has read
from `c` and printed is an interleaving of the first `a` values of
`0, 2, 4, 6, 8` and the first `b` values of `0, 3, 6, 9, 12`; it never has
more than 10 values, it has 10 when `main` returns, and once it has 10 it is
an interleaving of the two whole streams: its multiset is
`{0, 2, 4, 6, 8, 0, 3, 6, 9, 12}` and each stream appears in it in its own
order. -/
theorem fanIn_merge_is_interleaving (s : State) (h : Reachable sourceConfig s) :
    (∃ a b, a ≤ 5 ∧ b ≤ 5 ∧
      Interleave ([0, 2, 4, 6, 8].take a) ([0, 3, 6, 9, 12].take b) s.printed) ∧
    s.printed.length ≤ 10 ∧
    (s.main = .returned → s.printed.length = 10) ∧
    (s.printed.length = 10 →
      Interleave [0, 2, 4, 6, 8] [0, 3, 6, 9, 12] s.printed ∧
      (s.printed : Multiset Int) = {0, 2, 4, 6, 8, 0, 3, 6, 9, 12} ∧
      [0, 2, 4, 6, 8].Sublist s.printed ∧ [0, 3, 6, 9, 12].Sublist s.printed) := by
  have hinv := fan_inv_of_reachable _ s h
  obtain ⟨a, b, ha, hb, -, -, -, -, -, hil⟩ := printed_interleave _ s hinv
  have ha5 : a ≤ 5 := ha
  have hb5 : b ≤ 5 := hb
  have hlen := hil.length_eq
  simp only [stream_length] at hlen
  have hil' : Interleave ([0, 2, 4, 6, 8].take a) ([0, 3, 6, 9, 12].take b) s.printed := by
    rw [← stream_two, ← stream_three, stream_take _ _ _ ha5, stream_take _ _ _ hb5]
    exact hil
  refine ⟨⟨a, b, ha5, hb5, hil'⟩, by omega, ?_, ?_⟩
  · intro hret
    have hmain := hinv.2.2.2
    simp only [MainOK, hret] at hmain
    exact hmain.2.2.2
  · intro h10
    have ha' : a = 5 := by omega
    have hb' : b = 5 := by omega
    subst ha' hb'
    have hfull : Interleave [0, 2, 4, 6, 8] [0, 3, 6, 9, 12] s.printed := by
      simpa using hil'
    refine ⟨hfull, ?_, hfull.sublist_left, hfull.sublist_right⟩
    exact Multiset.coe_eq_coe.mpr hfull.perm

/-- The sample schedule, run to the end. -/
theorem fanIn_merge_is_interleaving_witness :
    Reachable sourceConfig sampleFinal ∧
    Interleave [0, 2, 4, 6, 8] [0, 3, 6, 9, 12] [0, 0, 2, 4, 6, 8, 3, 6, 9, 12] :=
  ⟨⟨sampleSchedule, by decide⟩,
    ((fanIn_merge_is_interleaving sampleFinal ⟨sampleSchedule, by decide⟩).2.2.2 rfl).1⟩

/-- A producer that has sent fewer values than its loop bound is at the loop
head, ready to send. -/
theorem loop_of_sentCount_lt {count : Nat} {p : Option ProdPc} (hp : p ≠ none)
    (h : sentCount count p < count) : ∃ j, p = some (.loop j) ∧ j < count := by
  rcases p with _ | (j | _)
  · exact absurd rfl hp
  · exact ⟨j, rfl, by simpa [sentCount] using h⟩
  · simp [sentCount] at h

theorem step_c1_enabled (cfg : Config) (s : State) (j : Nat) (hp : s.prod1 = some (.loop j))
    (hj : j < cfg.count) (hm : s.merger = some .selecting) :
    ∃ s', step cfg .c1 s = some s' := by
  simp [step, handoff, hp, hm, calcola, hj, raccogliRisultatiRecv]

theorem step_c2_enabled (cfg : Config) (s : State) (j : Nat) (hp : s.prod2 = some (.loop j))
    (hj : j < cfg.count) (hm : s.merger = some .selecting) :
    ∃ s', step cfg .c2 s = some s' := by
  simp [step, handoff, hp, hm, calcola, hj, raccogliRisultatiRecv]

theorem step_c_enabled (cfg : Config) (s : State) (i : Nat) (v : Int)
    (hmain : s.main = .reading i) (hi : i < cfg.reads) (hm : s.merger = some (.forwarding v)) :
    ∃ s', step cfg .c s = some s' := by
  simp [step, hmain, hm, hi, raccogliRisultatiSend]

theorem step_prod1_enabled (cfg : Config) (s : State) (j : Nat)
    (hp : s.prod1 = some (.loop j)) (hj : ¬ j < cfg.count) :
    ∃ s', step cfg .prod1 s = some s' := by
  simp [step, silent, hp, calcola, hj]

theorem step_prod2_enabled (cfg : Config) (s : State) (j : Nat)
    (hp : s.prod2 = some (.loop j)) (hj : ¬ j < cfg.count) :
    ∃ s', step cfg .prod2 s = some s' := by
  simp [step, silent, hp, calcola, hj]

/-- While `main` is inside its read loop, a communication is enabled. -/
theorem reading_enabled (cfg : Config) (hcfg : cfg.reads = 2 * cfg.count) (s : State)
    (hinv : Inv cfg s) (i : Nat) (hmain : s.main = .reading i) (hi : i < cfg.reads) :
    ∃ a s', (a = Action.c1 ∨ a = Action.c2 ∨ a = Action.c) ∧ step cfg a s = some s' := by
  obtain ⟨a, b, ha, hb, -, -, -, hsel, -, hil⟩ := printed_interleave cfg s hinv
  have hmn := hinv.2.2.2
  simp only [MainOK, hmain] at hmn
  obtain ⟨hp1, hp2, hmg, hlen, -⟩ := hmn
  have hl := hil.length_eq
  simp only [stream_length] at hl
  rcases hmerge : s.merger with _ | (_ | v)
  · exact absurd hmerge hmg
  · obtain ⟨rfl, rfl⟩ := hsel hmerge
    by_cases h1 : sentCount cfg.count s.prod1 < cfg.count
    · obtain ⟨j, hj, hlt⟩ := loop_of_sentCount_lt hp1 h1
      obtain ⟨s', hs'⟩ := step_c1_enabled cfg s j hj hlt hmerge
      exact ⟨_, s', Or.inl rfl, hs'⟩
    · have h2 : sentCount cfg.count s.prod2 < cfg.count := by omega
      obtain ⟨j, hj, hlt⟩ := loop_of_sentCount_lt hp2 h2
      obtain ⟨s', hs'⟩ := step_c2_enabled cfg s j hj hlt hmerge
      exact ⟨_, s', Or.inr (Or.inl rfl), hs'⟩
  · obtain ⟨s', hs'⟩ := step_c_enabled cfg s i v hmain hi hmerge
    exact ⟨_, s', Or.inr (Or.inr rfl), hs'⟩

/-- The final states of the program. -/
theorem stuck_iff (cfg : Config) (hcfg : cfg.reads = 2 * cfg.count) (s : State)
    (hinv : Inv cfg s) :
    Stuck cfg s ↔ s.main = .returned ∧ s.prod1 = some .returned ∧
      s.prod2 = some .returned ∧ s.merger = some .selecting := by
  constructor
  · intro hstuck
    obtain ⟨a, b, ha, hb, ha1, hb1, -, hsel, hfw, hil⟩ := printed_interleave cfg s hinv
    have hl := hil.length_eq
    simp only [stream_length] at hl
    have hmn := hinv.2.2.2
    have h1 := hinv.1
    have h2 := hinv.2.1
    rcases hmain : s.main with _ | _ | _ | i | _
    · have := hstuck .main; simp [step, main, hmain] at this
    · have := hstuck .main; simp [step, main, hmain] at this
    · have := hstuck .main; simp [step, main, hmain] at this
    · by_cases hi : i < cfg.reads
      · obtain ⟨a, s', -, hs'⟩ := reading_enabled cfg hcfg s hinv i hmain hi
        rw [hstuck a] at hs'
        exact absurd hs' (by simp)
      · have := hstuck .main; simp [step, main, hmain, hi] at this
    · simp only [MainOK, hmain] at hmn
      obtain ⟨hp1, hp2, hmg, hlen⟩ := hmn
      have hms : s.merger = some .selecting := by
        rcases hmerge : s.merger with _ | (_ | v)
        · exact absurd hmerge hmg
        · rfl
        · have := hfw v hmerge
          omega
      obtain ⟨rfl, rfl⟩ := hsel hms
      have hs1 : sentCount cfg.count s.prod1 = cfg.count := by omega
      have hs2 : sentCount cfg.count s.prod2 = cfg.count := by omega
      refine ⟨rfl, ?_, ?_, hms⟩
      · rcases hp : s.prod1 with _ | (j | _)
        · exact absurd hp hp1
        · have hj : ¬ j < cfg.count := by simp [hp, sentCount] at hs1; omega
          obtain ⟨s', hs'⟩ := step_prod1_enabled cfg s j hp hj
          rw [hstuck .prod1] at hs'
          exact absurd hs' (by simp)
        · rfl
      · rcases hp : s.prod2 with _ | (j | _)
        · exact absurd hp hp2
        · have hj : ¬ j < cfg.count := by simp [hp, sentCount] at hs2; omega
          obtain ⟨s', hs'⟩ := step_prod2_enabled cfg s j hp hj
          rw [hstuck .prod2] at hs'
          exact absurd hs' (by simp)
        · rfl
  · rintro ⟨hmain, hp1, hp2, hmg⟩ a
    cases a <;>
      simp [step, main, silent, handoff, calcola, hmain, hp1, hp2, hmg, raccogliRisultatiSend]

/-- C9. The fan-in orchestrator never deadlocks before its count is reached:
in every reachable state of the fan-in program of the source with fewer than
10 values printed some step is enabled, and a communication on `c1`, `c2` or
`c` is enabled whenever `main` is inside its read loop; the reachable states
with no enabled step are exactly those with `main` returned, both producers
returned and the merger waiting in its `select`, where 10 values were
printed; never more than 10 values are printed. -/
theorem fanIn_no_deadlock (s : State) (h : Reachable sourceConfig s) :
    (s.printed.length < 10 → ∃ a s', step sourceConfig a s = some s') ∧
    (∀ i, s.main = .reading i → i < 10 →
      ∃ a s', (a = Action.c1 ∨ a = Action.c2 ∨ a = Action.c) ∧
        step sourceConfig a s = some s') ∧
    (Stuck sourceConfig s ↔
      s.main = .returned ∧ s.prod1 = some .returned ∧ s.prod2 = some .returned ∧
        s.merger = some .selecting) ∧
    (Stuck sourceConfig s → s.printed.length = 10) ∧
    s.printed.length ≤ 10 := by
  have hinv := fan_inv_of_reachable _ s h
  have hcfg : sourceConfig.reads = 2 * sourceConfig.count := rfl
  have hiff := stuck_iff sourceConfig hcfg s hinv
  have hstuck : Stuck sourceConfig s → s.printed.length = 10 := by
    intro hs
    have hmn := hinv.2.2.2
    simp only [MainOK, (hiff.mp hs).1] at hmn
    exact hmn.2.2.2
  refine ⟨?_, fun i hi hlt => reading_enabled sourceConfig hcfg s hinv i hi hlt, hiff,
    hstuck, (fanIn_merge_bound s hinv)⟩
  intro hlt
  by_contra hno
  have hs : Stuck sourceConfig s := by
    intro a
    cases hstep : step sourceConfig a s with
    | none => rfl
    | some s' => exact absurd ⟨a, s', hstep⟩ hno
  have := hstuck hs
  omega

/-- The sample schedule at its end, where nothing can move, and the sample
schedule stopped after three values, where a step is enabled. -/
theorem fanIn_no_deadlock_witness :
    Reachable sourceConfig sampleFinal ∧ Stuck sourceConfig sampleFinal ∧
    Reachable sourceConfig sampleMid ∧
    (∃ a s', step sourceConfig a sampleMid = some s') :=
  ⟨⟨sampleSchedule, by decide⟩,
    (fanIn_no_deadlock sampleFinal ⟨sampleSchedule, by decide⟩).2.2.1.mpr ⟨rfl, rfl, rfl, rfl⟩,
    ⟨sampleMidSchedule, by decide⟩,
    (fanIn_no_deadlock sampleMid ⟨sampleMidSchedule, by decide⟩).1 (by decide)⟩

end FanOutFanIn

namespace WorkersPool

theorem jobsUpTo_succ (n : Nat) : jobsUpTo (n + 1) = jobsUpTo n ++ [(n : Int) + 1] := by
  simp [jobsUpTo, List.range_succ]

theorem jobsUpTo_length (n : Nat) : (jobsUpTo n).length = n := by
  simp [jobsUpTo]

theorem mem_jobsUpTo (n : Nat) (k : Int) : k ∈ jobsUpTo n ↔ 1 ≤ k ∧ k ≤ n := by
  simp only [jobsUpTo, List.mem_map, List.mem_range]
  constructor
  · rintro ⟨i, hi, rfl⟩
    omega
  · rintro ⟨h1, h2⟩
    exact ⟨(k - 1).toNat, by omega, by omega⟩

theorem jobsUpTo_nodup (n : Nat) : (jobsUpTo n).Nodup := by
  unfold jobsUpTo
  refine List.Nodup.map ?_ (List.nodup_range n)
  intro a b h
  simp only at h
  omega

theorem jobsUpTo_getElem? (n c : Nat) :
    (jobsUpTo n)[c]? = if c < n then some ((c : Int) + 1) else none := by
  by_cases h : c < n
  · simp [jobsUpTo, List.getElem?_map, List.getElem?_range h, h]
  · simp [jobsUpTo, h]
    omega

/-- In a first-in first-out queue fed with `1, 2, ...`, the head after `c`
claims is job `c + 1`. -/
theorem head_of_jobsUpTo {n c : Nat} {v : Int} {rest : List Int}
    (h : jobsUpTo n = jobsUpTo c ++ v :: rest) : v = (c : Int) + 1 := by
  have h1 : (jobsUpTo n)[c]? = some v := by
    rw [h, List.getElem?_append_right (by simp [jobsUpTo_length])]
    simp [jobsUpTo_length]
  rw [jobsUpTo_getElem?] at h1
  split at h1 <;> simp at h1
  exact h1.symm

theorem held_cons (w : WorkerPc) (ws : List WorkerPc) :
    held (w :: ws) = (holding w).toList ++ held ws := by
  cases h : holding w <;> simp [held, List.filterMap_cons, h]

theorem held_append (xs ys : List WorkerPc) : held (xs ++ ys) = held xs ++ held ys := by
  simp [held]

theorem held_length_le (ws : List WorkerPc) : (held ws).length ≤ ws.length := by
  simpa [held] using List.length_filterMap_le holding ws

theorem held_set_perm (w' : WorkerPc) :
    ∀ (ws : List WorkerPc) (k : Nat) (w : WorkerPc), ws[k]? = some w →
      ((holding w').toList ++ held ws).Perm ((holding w).toList ++ held (ws.set k w')) := by
  intro ws
  induction ws with
  | nil => intro k w h; simp at h
  | cons x t ih =>
    intro k w h
    cases k with
    | zero =>
      simp only [List.getElem?_cons_zero, Option.some.injEq] at h
      subst h
      simp only [List.set_cons_zero, held_cons]
      rw [← List.append_assoc, ← List.append_assoc]
      exact List.Perm.append_right _ List.perm_append_comm
    | succ k =>
      simp only [List.getElem?_cons_succ] at h
      simp only [List.set_cons_succ, held_cons]
      have := ih k w h
      exact (List.perm_append_comm_assoc _ _ _).trans
        ((List.Perm.append_left _ this).trans (List.perm_append_comm_assoc _ _ _))

theorem rank_set (w' : WorkerPc) :
    ∀ (ws : List WorkerPc) (k : Nat) (w : WorkerPc), ws[k]? = some w →
      ((ws.set k w').map workerRank).sum + workerRank w =
        (ws.map workerRank).sum + workerRank w' := by
  intro ws
  induction ws with
  | nil => intro k w h; simp at h
  | cons x t ih =>
    intro k w h
    cases k with
    | zero =>
      simp only [List.getElem?_cons_zero, Option.some.injEq] at h
      subst h
      simp only [List.set_cons_zero, List.map_cons, List.sum_cons]
      omega
    | succ k =>
      simp only [List.getElem?_cons_succ] at h
      have := ih k w h
      simp only [List.set_cons_succ, List.map_cons, List.sum_cons]
      omega

end WorkersPool

namespace Chan

theorem send_ok {c c' : Chan} {v : Int} (h : c.send v = .ok c') :
    c.closed = false ∧ c.buf.length < c.cap ∧
      c' = { c with buf := c.buf ++ [v], log := c.log ++ [v] } := by
  unfold send at h
  split at h
  · simp at h
  · split at h
    · rename_i h1 h2
      simp only [SendRes.ok.injEq] at h
      exact ⟨by simpa using h1, h2, h.symm⟩
    · simp at h

theorem send_panic {c : Chan} {v : Int} (h : c.send v = .panic) : c.closed = true := by
  unfold send at h
  split at h
  · assumption
  · split at h <;> simp at h

theorem send_blocked {c : Chan} {v : Int} (h : c.send v = .blocked) :
    c.closed = false ∧ ¬ c.buf.length < c.cap := by
  unfold send at h
  split at h
  · simp at h
  · rename_i h1
    split at h
    · simp at h
    · rename_i h2
      exact ⟨by simpa using h1, h2⟩

theorem recv_ok {c c' : Chan} {v : Int} (h : c.recv = .ok v c') :
    ∃ rest, c.buf = v :: rest ∧ c' = { c with buf := rest } := by
  unfold recv at h
  split at h
  · rename_i w rest hb
    simp only [RecvRes.ok.injEq] at h
    exact ⟨rest, by rw [hb, h.1], h.2.symm⟩
  · split at h <;> simp at h

theorem recv_closedEmpty {c : Chan} (h : c.recv = .closedEmpty) :
    c.buf = [] ∧ c.closed = true := by
  unfold recv at h
  split at h
  · simp at h
  · rename_i hb
    split at h
    · rename_i hc
      exact ⟨hb, hc⟩
    · simp at h

theorem recv_blocked {c : Chan} (h : c.recv = .blocked) :
    c.buf = [] ∧ c.closed = false := by
  unfold recv at h
  split at h
  · simp at h
  · rename_i hb
    split at h
    · simp at h
    · rename_i hc
      exact ⟨hb, by simpa using hc⟩

theorem close_some {c c' : Chan} (h : c.close = some c') :
    c.closed = false ∧ c' = { c with closed := true, closes := c.closes + 1 } := by
  unfold close at h
  split at h
  · simp at h
  · rename_i hc
    simp only [Option.some.injEq] at h
    exact ⟨by simpa using hc, h.symm⟩

theorem close_none {c : Chan} (h : c.close = none) : c.closed = true := by
  unfold close at h
  split at h
  · assumption
  · simp at h

end Chan

namespace WorkersPool

theorem pool_inv_init (J M : Nat) : Inv J M (init J) := by
  refine ⟨rfl, rfl, rfl, rfl, rfl, ?_, ⟨0, [], ?_⟩, ?_⟩
  · simp [MainOK, init, Chan.make]
  · simp [Flow, init, Chan.make, jobsUpTo, held]
  · intro k h
    simp [init] at h

theorem mainOK_facts {J M : Nat} {s : State} (h : MainOK J M s) :
    ∃ n, n ≤ J ∧ s.lavori.log = jobsUpTo n ∧ s.workers.length ≤ M := by
  unfold MainOK at h
  split at h
  · obtain ⟨h1, h2, h3, -⟩ := h
    exact ⟨0, by omega, by simpa [jobsUpTo] using h3, by omega⟩
  · rename_i j _
    obtain ⟨h1, h2, h3, h4, -⟩ := h
    exact ⟨j - 1, by omega, h4, by omega⟩
  · exact ⟨J, le_refl _, h.2.1, by omega⟩
  · exact ⟨J, le_refl _, h.2.2.1, by omega⟩
  · exact ⟨J, le_refl _, h.2.1, by omega⟩

theorem mainOK_congr {J M : Nat} {s s' : State} (h : MainOK J M s)
    (h1 : s'.main = s.main) (h2 : s'.workers.length = s.workers.length)
    (h3 : s'.lavori.log = s.lavori.log) (h4 : s'.lavori.closed = s.lavori.closed)
    (h5 : s'.lavori.closes = s.lavori.closes) (h6 : s'.received = s.received) :
    MainOK J M s' := by
  unfold MainOK at h ⊢
  rw [h1, h2, h3, h4, h5, h6]
  exact h

theorem inv_main (J M : Nat) (s s' : State)
    (hinv : Inv J M s) (hstep : main J M s = some s') : Inv J M s' := by
  obtain ⟨hf, hcapL, hcapR, hRcl, hRcs, hmain, ⟨c, pj, hlog, hst, hrlog, hrbuf, hperm, hord⟩,
    hexit⟩ := hinv
  rcases s with ⟨mn, ws, L, R, st, rc, flt⟩
  dsimp only at hf hcapL hcapR hRcl hRcs hlog hst hrlog hrbuf hperm hord hexit
  simp only [main] at hstep
  cases mn with
  | spawn i =>
    simp only [MainOK] at hmain
    obtain ⟨hi, hlen, hl, hc, hcs, hrc⟩ := hmain
    dsimp only at hstep
    split at hstep
    · rename_i hle
      simp only [Option.some.injEq] at hstep
      subst hstep
      refine ⟨hf, hcapL, hcapR, hRcl, hRcs, ?_, ⟨c, pj, hlog, hst, hrlog, hrbuf, ?_, hord⟩, ?_⟩
      · simp only [MainOK, List.length_append, List.length_singleton]
        exact ⟨by omega, by omega, hl, hc, hcs, hrc⟩
      · simpa [held_append, held, holding] using hperm
      · intro k hk
        dsimp only at hk hc ⊢
        rw [hc] at hexit
        by_cases hlt : k < ws.length
        · rw [List.getElem?_append_left hlt] at hk
          exact absurd (hexit k hk).1 (by simp)
        · rw [List.getElem?_append_right (by omega)] at hk
          cases hkk : k - ws.length <;> simp [hkk] at hk
    · rename_i hle
      simp only [Option.some.injEq] at hstep
      subst hstep
      refine ⟨hf, hcapL, hcapR, hRcl, hRcs, ?_, ⟨c, pj, hlog, hst, hrlog, hrbuf, hperm, hord⟩,
        hexit⟩
      simp only [MainOK]
      exact ⟨by omega, by omega, by simp [hl], by simp [hl, jobsUpTo], hc, hcs, hrc⟩
  | submit j =>
    simp only [MainOK] at hmain
    obtain ⟨hj, hlen, hll, hl, hc, hcs, hrc⟩ := hmain
    dsimp only at hstep hll hl hc hcs hrc hlen
    split at hstep
    · rename_i hle
      cases hsend : L.send (j : Int) with
      | ok L' =>
        simp only [hsend, Option.some.injEq] at hstep
        subst hstep
        obtain ⟨-, -, rfl⟩ := Chan.send_ok hsend
        have hjj : jobsUpTo j = jobsUpTo (j - 1) ++ [(j : Int)] := by
          obtain ⟨m, rfl⟩ : ∃ m, j = m + 1 := ⟨j - 1, by omega⟩
          simp [jobsUpTo_succ]
        refine ⟨hf, hcapL, hcapR, hRcl, hRcs, ?_, ⟨c, pj, ?_, hst, hrlog, hrbuf, hperm, hord⟩, ?_⟩
        · simp only [MainOK, List.length_append, List.length_singleton]
          exact ⟨by omega, hlen, by omega, by simp [hjj, hl], hc, hcs, hrc⟩
        · dsimp only
          rw [hlog, List.append_assoc]
        · intro k hk
          exact absurd (hc ▸ (hexit k hk).1) (by simp)
      | blocked => simp [hsend] at hstep
      | panic =>
        have := Chan.send_panic hsend
        rw [hc] at this
        exact absurd this (by simp)
    · rename_i hle
      simp only [Option.some.injEq] at hstep
      subst hstep
      refine ⟨hf, hcapL, hcapR, hRcl, hRcs, ?_, ⟨c, pj, hlog, hst, hrlog, hrbuf, hperm, hord⟩,
        hexit⟩
      simp only [MainOK]
      have : j - 1 = J := by omega
      exact ⟨hlen, by rw [hl, this], hc, hcs, hrc⟩
  | closing =>
    simp only [MainOK] at hmain
    obtain ⟨hlen, hl, hc, hcs, hrc⟩ := hmain
    dsimp only at hstep hl hc hcs hrc hlen
    cases hclose : L.close with
    | some L' =>
      simp only [hclose, Option.some.injEq] at hstep
      subst hstep
      obtain ⟨-, rfl⟩ := Chan.close_some hclose
      refine ⟨hf, hcapL, hcapR, hRcl, hRcs, ?_, ⟨c, pj, hlog, hst, hrlog, hrbuf, hperm, hord⟩, ?_⟩
      · simp only [MainOK]
        exact ⟨by omega, hlen, hl, trivial, by simp [hcs], by simp [hrc]⟩
      · intro k hk
        exact absurd (hc ▸ (hexit k hk).1) (by simp)
    | none =>
      have := Chan.close_none hclose
      rw [hc] at this
      exact absurd this (by simp)
  | collect i =>
    simp only [MainOK] at hmain
    obtain ⟨hi, hlen, hl, hc, hcs, hrc⟩ := hmain
    dsimp only at hstep hl hc hcs hrc hlen
    split at hstep
    · rename_i hle
      cases hrecv : R.recv with
      | ok v R' =>
        simp only [hrecv, Option.some.injEq] at hstep
        subst hstep
        obtain ⟨rest, hb, rfl⟩ := Chan.recv_ok hrecv
        refine ⟨hf, hcapL, hcapR, hRcl, hRcs, ?_, ⟨c, pj, hlog, hst, hrlog, ?_, hperm, hord⟩,
          hexit⟩
        · simp only [MainOK, List.length_append, List.length_singleton]
          exact ⟨by omega, hlen, hl, hc, hcs, by omega⟩
        · dsimp only
          rw [hrbuf, hb, List.append_assoc]
          rfl
      | closedEmpty =>
        have := (Chan.recv_closedEmpty hrecv).2
        rw [hRcl] at this
        exact absurd this (by simp)
      | blocked => simp [hrecv] at hstep
    · rename_i hle
      simp only [Option.some.injEq] at hstep
      subst hstep
      refine ⟨hf, hcapL, hcapR, hRcl, hRcs, ?_, ⟨c, pj, hlog, hst, hrlog, hrbuf, hperm, hord⟩,
        hexit⟩
      simp only [MainOK]
      exact ⟨hlen, hl, hc, hcs, by omega⟩
  | returned => simp at hstep

theorem getElem?_set_exited {ws : List WorkerPc} {k k' : Nat} {w : WorkerPc}
    (hw : w ≠ .exited) (h : (ws.set k w)[k']? = some .exited) : ws[k']? = some .exited := by
  rw [List.getElem?_set] at h
  split at h
  · split at h
    · simp only [Option.some.injEq] at h
      exact absurd h hw
    · simp at h
  · exact h

theorem mem_held_of_getElem? {ws : List WorkerPc} {k : Nat} {w : WorkerPc} {v : Int}
    (h : ws[k]? = some w) (hv : holding w = some v) : v ∈ held ws := by
  simp only [held, List.mem_filterMap]
  exact ⟨w, List.getElem?_mem h, hv⟩

theorem inv_worker (J M : Nat) (k : Nat) (s s' : State)
    (hinv : Inv J M s) (hstep : worker k s = some s') : Inv J M s' := by
  obtain ⟨hf, hcapL, hcapR, hRcl, hRcs, hmain, ⟨c, pj, hlog, hst, hrlog, hrbuf, hperm, hord⟩,
    hexit⟩ := hinv
  obtain ⟨n, hn, hlogn, hwlen⟩ := mainOK_facts hmain
  rcases s with ⟨mn, ws, L, R, st, rc, flt⟩
  dsimp only at hf hcapL hcapR hRcl hRcs hlog hst hrlog hrbuf hperm hord hexit hlogn hwlen
  simp only [worker] at hstep
  rcases hw : ws[k]? with _ | (_ | v | v | _)
  · simp [hw] at hstep
  · -- claiming
    simp only [hw] at hstep
    cases hrecv : L.recv with
    | ok v L' =>
      simp only [hrecv, Option.some.injEq] at hstep
      subst hstep
      obtain ⟨rest, hb, rfl⟩ := Chan.recv_ok hrecv
      have hv : v = (c : Int) + 1 := by
        rw [hlogn, hb] at hlog
        exact head_of_jobsUpTo hlog
      have hp := held_set_perm (.executing v) ws k _ hw
      simp only [holding, Option.toList, List.nil_append, List.singleton_append] at hp
      refine ⟨hf, hcapL, hcapR, hRcl, hRcs, ?_, ⟨c + 1, pj, ?_, ?_, hrlog, hrbuf, ?_, hord⟩, ?_⟩
      · exact mainOK_congr hmain rfl (by simp) rfl rfl rfl rfl
      · dsimp only
        rw [hlog, hb, jobsUpTo_succ, hv]
        simp
      · dsimp only
        rw [List.map_append, hst, jobsUpTo_succ, hv]
        simp
      · dsimp only
        rw [jobsUpTo_succ, ← hv]
        refine (List.Perm.append_left pj hp.symm).trans ?_
        refine List.perm_middle.trans ?_
        exact ((List.Perm.cons v hperm).trans (List.perm_append_singleton v _).symm)
      · intro k' hk'
        dsimp only at hk' ⊢
        have := (hexit k' (getElem?_set_exited (by simp) hk')).2
        rw [hb] at this
        exact absurd this (by simp)
    | closedEmpty =>
      simp only [hrecv, Option.some.injEq] at hstep
      subst hstep
      obtain ⟨hb, hcl⟩ := Chan.recv_closedEmpty hrecv
      have hp := held_set_perm .exited ws k _ hw
      simp only [holding, Option.toList, List.nil_append] at hp
      refine ⟨hf, hcapL, hcapR, hRcl, hRcs, ?_, ⟨c, pj, hlog, hst, hrlog, hrbuf, ?_, hord⟩, ?_⟩
      · exact mainOK_congr hmain rfl (by simp) rfl rfl rfl rfl
      · exact (List.Perm.append_left pj hp.symm).trans hperm
      · intro k' hk'
        exact ⟨hcl, hb⟩
    | blocked => simp [hrecv] at hstep
  · -- executing
    simp only [hw, Option.some.injEq] at hstep
    subst hstep
    have hp := held_set_perm (.publishing v) ws k _ hw
    simp only [holding, Option.toList, List.singleton_append] at hp
    have hp' := (List.perm_cons v).mp hp
    refine ⟨hf, hcapL, hcapR, hRcl, hRcs, ?_, ⟨c, pj, hlog, hst, hrlog, hrbuf, ?_, hord⟩, ?_⟩
    · exact mainOK_congr hmain rfl (by simp) rfl rfl rfl rfl
    · exact (List.Perm.append_left pj hp'.symm).trans hperm
    · intro k' hk'
      exact hexit k' (getElem?_set_exited (by simp) hk')
  · -- publishing
    simp only [hw] at hstep
    cases hsend : R.send (workFn v) with
    | ok R' =>
      simp only [hsend, Option.some.injEq] at hstep
      subst hstep
      obtain ⟨-, -, rfl⟩ := Chan.send_ok hsend
      have hp := held_set_perm .claiming ws k _ hw
      simp only [holding, Option.toList, List.nil_append, List.singleton_append] at hp
      have hvmem : v ∈ jobsUpTo c :=
        hperm.subset (List.mem_append_right _ (mem_held_of_getElem? hw rfl))
      have hvc := ((mem_jobsUpTo c v).mp hvmem).2
      have hlen := hperm.length_eq
      simp only [List.length_append, jobsUpTo_length] at hlen
      have hhl := held_length_le ws
      refine ⟨hf, hcapL, hcapR, hRcl, hRcs, ?_, ⟨c, pj ++ [v], hlog, hst, ?_, ?_, ?_, ?_⟩, ?_⟩
      · exact mainOK_congr hmain rfl (by simp) rfl rfl rfl rfl
      · dsimp only
        rw [hrlog]
        simp
      · dsimp only
        rw [hrbuf, List.append_assoc]
      · dsimp only
        rw [List.append_assoc, List.singleton_append]
        exact (List.Perm.append_left pj hp.symm).trans hperm
      · intro p j hj
        by_cases hlt : p < pj.length
        · rw [List.getElem?_append_left hlt] at hj
          exact hord p j hj
        · rw [List.getElem?_append_right (by omega)] at hj
          cases hpp : p - pj.length with
          | zero =>
            simp only [hpp, List.getElem?_cons_zero, Option.some.injEq] at hj
            subst hj
            omega
          | succ q => simp [hpp] at hj
      · intro k' hk'
        exact hexit k' (getElem?_set_exited (by simp) hk')
    | blocked => simp [hsend] at hstep
    | panic =>
      have := Chan.send_panic hsend
      rw [hRcl] at this
      exact absurd this (by simp)
  · simp [hw] at hstep

theorem pool_inv_step (J M : Nat) (a : Action) (s s' : State)
    (hinv : Inv J M s) (hstep : step J M a s = some s') : Inv J M s' := by
  unfold step at hstep
  split at hstep
  · simp at hstep
  · cases a with
    | main => exact inv_main J M s s' hinv hstep
    | worker k => exact inv_worker J M k s s' hinv hstep

theorem pool_inv_run (J M : Nat) (as : List Action) :
    ∀ s s', Inv J M s → run J M as s = some s' → Inv J M s' := by
  induction as with
  | nil => intro s s' h hr; simp [run] at hr; exact hr ▸ h
  | cons a as ih =>
    intro s s' h hr
    simp only [run] at hr
    split at hr
    · rename_i s1 hs1
      exact ih s1 s' (pool_inv_step J M a s s1 h hs1) hr
    · simp at hr

theorem pool_inv_of_reachable (J M : Nat) (s : State) (h : Reachable J M s) : Inv J M s := by
  obtain ⟨as, hr⟩ := h
  exact pool_inv_run J M as (init J) s (pool_inv_init J M) hr


theorem rank_main (J M : Nat) (s s' : State) (hf : s.fault = false)
    (hstep : main J M s = some s') : rank J M s' < rank J M s := by
  rcases s with ⟨mn, ws, L, R, st, rc, flt⟩
  dsimp only at hf
  subst hf
  simp only [main] at hstep
  cases mn with
  | spawn i =>
    dsimp only at hstep
    split at hstep
    · simp only [Option.some.injEq] at hstep
      subst hstep
      simp [rank, mainRank, workerRank]
      omega
    · simp only [Option.some.injEq] at hstep
      subst hstep
      simp [rank, mainRank]
      omega
  | submit j =>
    dsimp only at hstep
    split at hstep
    · cases hsend : L.send (j : Int) with
      | ok L' =>
        simp only [hsend, Option.some.injEq] at hstep
        subst hstep
        obtain ⟨-, -, rfl⟩ := Chan.send_ok hsend
        simp [rank, mainRank]
        omega
      | blocked => simp [hsend] at hstep
      | panic =>
        simp only [hsend, Option.some.injEq] at hstep
        subst hstep
        simp [rank]
    · simp only [Option.some.injEq] at hstep
      subst hstep
      simp [rank, mainRank]
      omega
  | closing =>
    dsimp only at hstep
    cases hclose : L.close with
    | some L' =>
      simp only [hclose, Option.some.injEq] at hstep
      subst hstep
      obtain ⟨-, rfl⟩ := Chan.close_some hclose
      simp [rank, mainRank]
    | none =>
      simp only [hclose, Option.some.injEq] at hstep
      subst hstep
      simp [rank]
  | collect i =>
    dsimp only at hstep
    split at hstep
    · cases hrecv : R.recv with
      | ok v R' =>
        simp only [hrecv, Option.some.injEq] at hstep
        subst hstep
        simp [rank, mainRank]
        omega
      | closedEmpty =>
        simp only [hrecv, Option.some.injEq] at hstep
        subst hstep
        simp [rank, mainRank]
        omega
      | blocked => simp [hrecv] at hstep
    · simp only [Option.some.injEq] at hstep
      subst hstep
      simp [rank, mainRank]
  | returned => simp at hstep

theorem rank_worker (J M : Nat) (k : Nat) (s s' : State) (hf : s.fault = false)
    (hstep : worker k s = some s') : rank J M s' < rank J M s := by
  rcases s with ⟨mn, ws, L, R, st, rc, flt⟩
  dsimp only at hf
  subst hf
  simp only [worker] at hstep
  rcases hw : ws[k]? with _ | (_ | v | v | _)
  · simp [hw] at hstep
  · simp only [hw] at hstep
    cases hrecv : L.recv with
    | ok v L' =>
      simp only [hrecv, Option.some.injEq] at hstep
      subst hstep
      obtain ⟨rest, hb, rfl⟩ := Chan.recv_ok hrecv
      have := rank_set (.executing v) ws k _ hw
      simp only [workerRank] at this
      simp only [rank, workerRank, hb, List.length_cons, Bool.false_eq_true, if_false]
      omega
    | closedEmpty =>
      simp only [hrecv, Option.some.injEq] at hstep
      subst hstep
      have := rank_set .exited ws k _ hw
      simp only [workerRank] at this
      simp only [rank, workerRank, Bool.false_eq_true, if_false]
      omega
    | blocked => simp [hrecv] at hstep
  · simp only [hw, Option.some.injEq] at hstep
    subst hstep
    have := rank_set (.publishing v) ws k _ hw
    simp only [workerRank] at this
    simp only [rank, workerRank, Bool.false_eq_true, if_false]
    omega
  · simp only [hw] at hstep
    cases hsend : R.send (workFn v) with
    | ok R' =>
      simp only [hsend, Option.some.injEq] at hstep
      subst hstep
      have := rank_set .claiming ws k _ hw
      simp only [workerRank] at this
      simp only [rank, workerRank, Bool.false_eq_true, if_false]
      omega
    | blocked => simp [hsend] at hstep
    | panic =>
      simp only [hsend, Option.some.injEq] at hstep
      subst hstep
      simp [rank]
  · simp [hw] at hstep

/-- Every step lowers the rank. -/
theorem rank_step (J M : Nat) (a : Action) (s s' : State)
    (hstep : step J M a s = some s') : rank J M s' < rank J M s := by
  unfold step at hstep
  split at hstep
  · simp at hstep
  · rename_i hf
    have hf' : s.fault = false := by simpa using hf
    cases a with
    | main => exact rank_main J M s s' hf' hstep
    | worker k => exact rank_worker J M k s s' hf' hstep

/-- A schedule that runs is no longer than the rank of its first state. -/
theorem run_length_le (J M : Nat) (as : List Action) :
    ∀ s s', run J M as s = some s' → as.length + rank J M s' ≤ rank J M s := by
  induction as with
  | nil => intro s s' hr; simp [run] at hr; simp [hr]
  | cons a as ih =>
    intro s s' hr
    simp only [run] at hr
    split at hr
    · rename_i s1 hs1
      have h1 := ih s1 s' hr
      have h2 := rank_step J M a s s1 hs1
      simp only [List.length_cons]
      omega
    · simp at hr


theorem held_eq_nil {ws : List WorkerPc} (h : ∀ w ∈ ws, holding w = none) : held ws = [] := by
  induction ws with
  | nil => rfl
  | cons x t ih =>
    rw [held_cons, h x (List.mem_cons_self _ _), ih (fun w hw => h w (List.mem_cons_of_mem _ hw))]
    rfl

/-- Counting the jobs: with `c` jobs claimed and `pj` published, the
published and the held jobs are `c` in number, and `c` is at most the number
of jobs submitted. -/
theorem flow_counts {J M : Nat} {s : State} (hmain : MainOK J M s) {c : Nat} {pj : List Int}
    (hflow : Flow M s c pj) :
    pj.length + (held s.workers).length = c ∧ c + s.lavori.buf.length ≤ J ∧
      c + s.lavori.buf.length = s.lavori.log.length ∧
      pj.length = s.received.length + s.risultati.buf.length := by
  obtain ⟨hlog, -, hrlog, hrbuf, hperm, -⟩ := hflow
  obtain ⟨n, hn, hlogn, -⟩ := mainOK_facts hmain
  have h1 := hperm.length_eq
  simp only [List.length_append, jobsUpTo_length] at h1
  have h2 := congrArg List.length hlog
  rw [hlogn] at h2
  simp only [List.length_append, jobsUpTo_length] at h2
  have h3 := congrArg List.length hrlog
  rw [hrbuf] at h3
  simp only [List.length_append, List.length_map] at h3
  have h4 : s.lavori.log.length = n := by rw [hlogn, jobsUpTo_length]
  exact ⟨h1, by omega, by omega, by omega⟩

/-- A publishing worker always finds room in the results queue. -/
theorem publish_room {J M : Nat} {s : State} (hinv : Inv J M s) {k : Nat} {v : Int}
    (hw : s.workers[k]? = some (.publishing v)) : s.risultati.buf.length < s.risultati.cap := by
  obtain ⟨-, -, hcapR, -, -, hmain, ⟨c, pj, hflow⟩, -⟩ := hinv
  obtain ⟨h1, h2, -, h4⟩ := flow_counts hmain hflow
  have hv : v ∈ held s.workers := mem_held_of_getElem? hw rfl
  have := List.length_pos_of_mem hv
  omega

/-- A submitting `main` always finds room in the job queue. -/
theorem submit_room {J M : Nat} {s : State} (hinv : Inv J M s) {j : Nat}
    (hm : s.main = .submit j) (hj : j ≤ J) : s.lavori.buf.length < s.lavori.cap := by
  obtain ⟨-, hcapL, -, -, -, hmain, ⟨c, pj, hflow⟩, -⟩ := hinv
  obtain ⟨-, -, h3, -⟩ := flow_counts hmain hflow
  simp only [MainOK, hm] at hmain
  omega

theorem worker_stuck {J M : Nat} {s : State} (hinv : Inv J M s) {k : Nat} {w : WorkerPc}
    (hw : s.workers[k]? = some w) (hnone : worker k s = none) :
    w = .exited ∨ (w = .claiming ∧ s.lavori.buf = [] ∧ s.lavori.closed = false) := by
  simp only [worker, hw] at hnone
  cases w with
  | claiming =>
    dsimp only at hnone
    cases hrecv : s.lavori.recv with
    | ok v L' => simp [hrecv] at hnone
    | closedEmpty => simp [hrecv] at hnone
    | blocked => exact Or.inr ⟨rfl, Chan.recv_blocked hrecv⟩
  | executing v => simp at hnone
  | publishing v =>
    dsimp only at hnone
    cases hsend : s.risultati.send (workFn v) with
    | ok R' => simp [hsend] at hnone
    | blocked => exact absurd (publish_room hinv hw) (Chan.send_blocked hsend).2
    | panic => simp [hsend] at hnone
  | exited => exact Or.inl rfl

/-- The final states: with at least one worker, a state of the program in
which nothing can move has `main` returned, every worker out of its loop and
the job queue closed and empty. -/
theorem stuck_final {J M : Nat} (hM : 1 ≤ M) {s : State} (hinv : Inv J M s)
    (hstuck : Stuck J M s) :
    s.main = .returned ∧ (∀ w ∈ s.workers, w = .exited) ∧ s.workers.length = M ∧
      s.lavori.closed = true ∧ s.lavori.buf = [] := by
  have hf := hinv.1
  have hmainstep : main J M s = none := by
    have := hstuck .main
    simpa [step, hf] using this
  have hworkerstep : ∀ k, worker k s = none := by
    intro k
    have := hstuck (.worker k)
    simpa [step, hf] using this
  have hws : ∀ (k : Nat) (w : WorkerPc), s.workers[k]? = some w →
      w = WorkerPc.exited ∨
        (w = WorkerPc.claiming ∧ s.lavori.buf = [] ∧ s.lavori.closed = false) :=
    fun k w hw => worker_stuck hinv hw (hworkerstep k)
  obtain ⟨-, hcapL, hcapR, hRcl, -, hmain, ⟨c, pj, hflow⟩, hexit⟩ := hinv
  -- once the job queue is closed every worker has left and the queue is empty
  have hclosed : s.lavori.closed = true → s.workers.length = M →
      (∀ w ∈ s.workers, w = .exited) ∧ s.lavori.buf = [] := by
    intro hc hlen
    have hall : ∀ w ∈ s.workers, w = .exited := by
      intro w hw
      obtain ⟨k, hk⟩ := List.mem_iff_getElem?.mp hw
      rcases hws k w hk with h | ⟨-, -, h⟩
      · exact h
      · rw [hc] at h
        exact absurd h (by simp)
    refine ⟨hall, ?_⟩
    have h0 : 0 < s.workers.length := by omega
    have hk : s.workers[0]? = some s.workers[0] := List.getElem?_eq_getElem h0
    have := hall _ (List.getElem?_mem hk)
    rw [this] at hk
    exact (hexit 0 hk).2
  have hcounts := flow_counts hmain hflow
  cases hm : s.main with
  | spawn i =>
    simp only [main, hm] at hmainstep
    split at hmainstep <;> simp at hmainstep
  | submit j =>
    simp only [main, hm] at hmainstep
    split at hmainstep
    · rename_i hj
      have hroom : s.lavori.buf.length < s.lavori.cap := by
        simp only [MainOK, hm] at hmain
        omega
      cases hsend : s.lavori.send (j : Int) with
      | ok L' => simp [hsend] at hmainstep
      | blocked => exact absurd hroom (Chan.send_blocked hsend).2
      | panic => simp [hsend] at hmainstep
    · simp at hmainstep
  | closing =>
    simp only [main, hm] at hmainstep
    cases hclose : s.lavori.close <;> simp [hclose] at hmainstep
  | collect i =>
    simp only [main, hm] at hmainstep
    simp only [MainOK, hm] at hmain
    obtain ⟨hi, hlen, hl, hc, hcs, hrc⟩ := hmain
    split at hmainstep
    · rename_i hle
      cases hrecv : s.risultati.recv with
      | ok v R' => simp [hrecv] at hmainstep
      | closedEmpty => simp [hrecv] at hmainstep
      | blocked =>
        obtain ⟨hb, -⟩ := Chan.recv_blocked hrecv
        obtain ⟨hall, hbuf⟩ := hclosed hc hlen
        have hheld : held s.workers = [] :=
          held_eq_nil (fun w hw => by rw [hall w hw]; rfl)
        have hll : s.lavori.log.length = J := by rw [hl, jobsUpTo_length]
        rw [hheld, hbuf, hb] at hcounts
        simp only [List.length_nil] at hcounts
        omega
    · simp at hmainstep
  | returned =>
    simp only [MainOK, hm] at hmain
    obtain ⟨hlen, hl, hc, hcs, hrc⟩ := hmain
    obtain ⟨hall, hbuf⟩ := hclosed hc hlen
    exact ⟨rfl, hall, hlen, hc, hbuf⟩

/-- Once `main` has collected `J` results, they are the results of the jobs
`1, ..., J`, each once. -/
theorem received_final {J M : Nat} {s : State} (hinv : Inv J M s)
    (hlen : s.received.length = J) :
    s.received.Perm ((jobsUpTo J).map workFn) ∧ s.risultati.buf = [] ∧
      held s.workers = [] ∧ s.lavori.buf = [] := by
  obtain ⟨-, -, -, -, -, hmain, ⟨c, pj, hflow⟩, -⟩ := hinv
  obtain ⟨h1, h2, h3, h4⟩ := flow_counts hmain hflow
  obtain ⟨hlog, -, hrlog, hrbuf, hperm, -⟩ := hflow
  have hrb : s.risultati.buf = [] := List.eq_nil_of_length_eq_zero (by omega)
  have hh : held s.workers = [] := List.eq_nil_of_length_eq_zero (by omega)
  have hlb : s.lavori.buf = [] := List.eq_nil_of_length_eq_zero (by omega)
  have hc : c = J := by omega
  subst hc
  rw [hh, List.append_nil] at hperm
  rw [hrb, List.append_nil] at hrbuf
  refine ⟨?_, hrb, hh, hlb⟩
  rw [← hrbuf, hrlog]
  exact hperm.map workFn


theorem workFn_eq (k : Int) (h1 : 1 ≤ k) (h2 : k ≤ 4611686018427387903) :
    workFn k = 2 * k := by
  unfold workFn GoInt.mul GoInt.wrap
  omega

theorem count_map_workFn (J : Nat) (hJ : (J : Int) ≤ 4611686018427387903) (j : Int) :
    ∀ l : List Int, (∀ x ∈ l, x ∈ jobsUpTo J) → (l.map workFn).count (2 * j) = l.count j := by
  intro l
  induction l with
  | nil => intro _; rfl
  | cons x t ih =>
    intro h
    have hx := (mem_jobsUpTo J x).mp (h x (List.mem_cons_self _ _))
    have iht := ih (fun y hy => h y (List.mem_cons_of_mem _ hy))
    rw [List.map_cons, List.count_cons, List.count_cons, iht, workFn_eq x hx.1 (by omega)]
    by_cases hxj : x = j
    · subst hxj
      simp
    · have hne : ¬ (2 * x = 2 * j) := by omega
      simp [hxj, hne]

theorem jobsUpTo_subset {c n : Nat} (h : c ≤ n) {x : Int} (hx : x ∈ jobsUpTo c) :
    x ∈ jobsUpTo n := by
  rw [mem_jobsUpTo] at hx ⊢
  omega

theorem jobsUpTo_five : jobsUpTo 5 = [1, 2, 3, 4, 5] := by decide

/-- Each job is in one place: in the job queue, with one worker, or
published. -/
theorem exactly_once (J M : Nat) (hJ : (J : Int) ≤ 4611686018427387903) (s : State)
    (hinv : Inv J M s) (j : Int) :
    (s.started.map Prod.snd).count j ≤ 1 ∧ (held s.workers).count j ≤ 1 ∧
      s.risultati.log.count (2 * j) ≤ 1 ∧
      (j ∈ s.lavori.log →
        s.lavori.buf.count j + (held s.workers).count j + s.risultati.log.count (2 * j) = 1) := by
  obtain ⟨-, -, -, -, -, hmain, ⟨c, pj, hflow⟩, -⟩ := hinv
  obtain ⟨-, h2, h3, -⟩ := flow_counts hmain hflow
  obtain ⟨n, hn, hlogn, -⟩ := mainOK_facts hmain
  obtain ⟨hlog, hst, hrlog, -, hperm, -⟩ := hflow
  have hcn : c ≤ J := by omega
  have hc1 : (jobsUpTo c).count j ≤ 1 := List.nodup_iff_count_le_one.mp (jobsUpTo_nodup c) j
  have hcnt : pj.count j + (held s.workers).count j = (jobsUpTo c).count j := by
    rw [← List.count_append]
    exact hperm.count_eq j
  have hpjmem : ∀ x ∈ pj, x ∈ jobsUpTo J := fun x hx =>
    jobsUpTo_subset hcn (hperm.subset (List.mem_append_left _ hx))
  have hres : s.risultati.log.count (2 * j) = pj.count j := by
    rw [hrlog]
    exact count_map_workFn J hJ j pj hpjmem
  refine ⟨by rw [hst]; exact hc1, by omega, by omega, ?_⟩
  intro hj
  have hone : s.lavori.log.count j = 1 := by
    rw [hlogn] at hj ⊢
    exact List.count_eq_one_of_mem (jobsUpTo_nodup n) hj
  rw [hlog, List.count_append] at hone
  omega

/-- The result at position `p` of the results queue is that of a job no
larger than `p + M`. -/
theorem result_order (J M : Nat) (hJ : (J : Int) ≤ 4611686018427387903) (s : State)
    (hinv : Inv J M s) (p : Nat) (r : Int) (hr : s.risultati.log[p]? = some r) :
    ∃ k : Int, 1 ≤ k ∧ k ≤ J ∧ r = 2 * k ∧ k ≤ (p : Int) + M := by
  obtain ⟨-, -, -, -, -, hmain, ⟨c, pj, hflow⟩, -⟩ := hinv
  obtain ⟨-, h2, -, -⟩ := flow_counts hmain hflow
  obtain ⟨-, -, hrlog, -, hperm, hord⟩ := hflow
  rw [hrlog, List.getElem?_map] at hr
  cases hk : pj[p]? with
  | none => simp [hk] at hr
  | some k =>
    simp only [hk, Option.map_some', Option.some.injEq] at hr
    have hmem : k ∈ jobsUpTo c := hperm.subset (List.mem_append_left _ (List.getElem?_mem hk))
    rw [mem_jobsUpTo] at hmem
    refine ⟨k, hmem.1, by omega, ?_, hord p k hk⟩
    rw [← hr, workFn_eq k hmem.1 (by omega)]

theorem received_in_log {J M : Nat} {s : State} (hinv : Inv J M s) {p : Nat} {r : Int}
    (hr : s.received[p]? = some r) : s.risultati.log[p]? = some r := by
  obtain ⟨-, -, -, -, -, -, ⟨c, pj, hflow⟩, -⟩ := hinv
  obtain ⟨-, -, -, hrbuf, -, -⟩ := hflow
  have hlt : p < s.received.length := (List.getElem?_eq_some.mp hr).1
  rw [hrbuf, List.getElem?_append_left hlt]
  exact hr


theorem results_five : (jobsUpTo 5).map workFn = [2, 4, 6, 8, 10] := by decide

theorem map_workFn_jobsUpTo (J : Nat) (hJ : (J : Int) ≤ 4611686018427387903) :
    (jobsUpTo J).map workFn = (jobsUpTo J).map fun j => 2 * j := by
  apply List.map_congr_left
  intro x hx
  rw [mem_jobsUpTo] at hx
  exact workFn_eq x hx.1 (by omega)

/-- C1. Worker pool result multiset: for every number of jobs `J` and every
number of workers `M ≥ 1`, in every reachable state of the worker pool the
orchestrator has received at most `J` results, each the work of a submitted
job; once it has received `J` results (as it has when `main` returns) their
multiset is that of `workFn 1, ..., workFn J`, which is `2 * 1, ..., 2 * J`
while `2 * J` fits a Go int and `{2, 4, 6, 8, 10}` for the `J = 5` of the
code; and every execution gets there, since a state in which nothing can
move has `main` returned and no execution is longer than the rank. -/
theorem workerPool_result_multiset (J M : Nat) (hM : 1 ≤ M) (s : State)
    (h : Reachable J M s) :
    s.received.length ≤ J ∧
    (∀ r ∈ s.received, ∃ j ∈ jobsUpTo J, r = workFn j) ∧
    (s.main = .returned → s.received.length = J) ∧
    (s.received.length = J →
      (s.received : Multiset Int) = ((jobsUpTo J).map workFn : List Int)) ∧
    ((J : Int) ≤ 4611686018427387903 → s.received.length = J →
      (s.received : Multiset Int) = ((jobsUpTo J).map (fun j => 2 * j) : List Int)) ∧
    (J = numLavori → s.received.length = J →
      (s.received : Multiset Int) = {2, 4, 6, 8, 10}) ∧
    (Stuck J M s → s.main = .returned) ∧
    (∀ as s', run J M as s = some s' → as.length ≤ rank J M s) := by
  have hinv := pool_inv_of_reachable J M s h
  have hfinal : s.received.length = J →
      (s.received : Multiset Int) = ((jobsUpTo J).map workFn : List Int) :=
    fun hlen => Multiset.coe_eq_coe.mpr (received_final hinv hlen).1
  obtain ⟨-, -, -, -, -, hmain, ⟨c, pj, hflow⟩, -⟩ := hinv
  obtain ⟨h1, h2, h3, h4⟩ := flow_counts hmain hflow
  refine ⟨by omega, ?_, ?_, hfinal, ?_, ?_, ?_, ?_⟩
  · intro r hr
    obtain ⟨-, -, hrlog, hrbuf, hperm, -⟩ := hflow
    have hmem : r ∈ s.risultati.log := by
      rw [hrbuf]
      exact List.mem_append_left _ hr
    rw [hrlog, List.mem_map] at hmem
    obtain ⟨j, hj, rfl⟩ := hmem
    exact ⟨j, jobsUpTo_subset (by omega) (hperm.subset (List.mem_append_left _ hj)), rfl⟩
  · intro hret
    simp only [MainOK, hret] at hmain
    exact hmain.2.2.2.2
  · intro hJ hlen
    rw [hfinal hlen, map_workFn_jobsUpTo J hJ]
  · intro hJ hlen
    rw [hfinal hlen, hJ]
    exact congrArg _ results_five
  · intro hstuck
    exact (stuck_final hM (pool_inv_of_reachable J M s h) hstuck).1
  · intro as s' hrun
    have := run_length_le J M as s s' hrun
    omega

/-- The schedule with the results in submission order, run to the end. -/
theorem workerPool_result_multiset_witness :
    1 ≤ 3 ∧ Reachable 5 3 finalInOrder ∧
    (finalInOrder.received : Multiset Int) = {2, 4, 6, 8, 10} :=
  ⟨by decide, ⟨scheduleInOrder, by decide⟩,
    (workerPool_result_multiset 5 3 (by decide) finalInOrder
      ⟨scheduleInOrder, by decide⟩).2.2.2.2.2.1 rfl rfl⟩

/-- C4. Exactly-once claiming and publishing: in every reachable state of the
worker pool of the code and for every job `j`, the lines
`Worker _: inizio lavoro j` printed so far are at most one (the job was
claimed at most once, by one worker), at most one worker holds `j`, the value
`2 * j` was sent to `risultati` at most once, and once `j` was submitted the
copies of `j` in the job queue, the workers holding `j` and the copies of
`2 * j` sent to `risultati` add up to one. -/
theorem workerPool_exactly_once (s : State) (h : Reachable numLavori numWorker s) (j : Int) :
    (s.started.map Prod.snd).count j ≤ 1 ∧
    (held s.workers).count j ≤ 1 ∧
    s.risultati.log.count (2 * j) ≤ 1 ∧
    (j ∈ s.lavori.log →
      s.lavori.buf.count j + (held s.workers).count j + s.risultati.log.count (2 * j) = 1) :=
  exactly_once numLavori numWorker (by decide) s (pool_inv_of_reachable _ _ s h) j

/-- Job 2 in the middle state: held by the second worker, neither queued nor
published. -/
theorem workerPool_exactly_once_witness :
    Reachable numLavori numWorker stateMid ∧
    (2 : Int) ∈ stateMid.lavori.log ∧
    stateMid.lavori.buf.count 2 + (held stateMid.workers).count 2 +
      stateMid.risultati.log.count (2 * 2) = 1 :=
  ⟨⟨scheduleMid, by decide⟩, by decide,
    (workerPool_exactly_once stateMid ⟨scheduleMid, by decide⟩ 2).2.2.2 (by decide)⟩

/-- C5. Graceful drain: in the worker pool of the code, run on after `main`
returns, no execution from a reachable state is longer than the rank of that
state, which is at most 37; a reachable state in which nothing can move has
`main` returned with all five results received, the job queue closed and
empty and the three workers out of their loop; and a worker waiting on the
job queue can move once the queue is closed. -/
theorem workerPool_graceful_drain (s : State) (h : Reachable numLavori numWorker s) :
    (∀ as s', run numLavori numWorker as s = some s' →
      as.length ≤ rank numLavori numWorker s) ∧
    rank numLavori numWorker s ≤ 37 ∧
    (Stuck numLavori numWorker s →
      s.main = .returned ∧ s.received.length = 5 ∧ s.lavori.closed = true ∧
        s.lavori.buf = [] ∧ s.workers = [.exited, .exited, .exited]) ∧
    (∀ k : Nat, s.workers[k]? = some WorkerPc.claiming → s.lavori.closed = true →
      ∃ s', step numLavori numWorker (.worker k) s = some s') := by
  have hinv := pool_inv_of_reachable _ _ s h
  refine ⟨?_, ?_, ?_, ?_⟩
  · intro as s' hrun
    have := run_length_le _ _ as s s' hrun
    omega
  · obtain ⟨as, hrun⟩ := h
    have := run_length_le _ _ as _ s hrun
    have hinit : rank numLavori numWorker (init numLavori) = 37 := by decide
    omega
  · intro hstuck
    obtain ⟨hret, hall, hlen, hcl, hbuf⟩ := stuck_final (by decide) hinv hstuck
    have hmain := hinv.2.2.2.2.2.1
    simp only [MainOK, hret] at hmain
    refine ⟨hret, hmain.2.2.2.2, hcl, hbuf, ?_⟩
    have : s.workers = List.replicate 3 WorkerPc.exited :=
      List.eq_replicate_iff.mpr ⟨hlen, hall⟩
    simpa using this
  · intro k hk hcl
    have hf := hinv.1
    simp only [step, hf, Bool.false_eq_true, if_false, worker, hk]
    cases hrecv : s.lavori.recv with
    | ok v L' => exact ⟨_, rfl⟩
    | closedEmpty => exact ⟨_, rfl⟩
    | blocked =>
      have := (Chan.recv_blocked hrecv).2
      rw [hcl] at this
      exact absurd this (by simp)

/-- Nothing can move in the final state of the complete schedule. -/
theorem finalInOrder_stuck : Stuck numLavori numWorker finalInOrder := by
  intro a
  cases a with
  | main => rfl
  | worker k =>
    rcases k with _ | _ | _ | k <;> simp [step, worker, finalInOrder]

/-- The final state of the complete schedule: nothing can move, everything is
drained. -/
theorem workerPool_graceful_drain_witness :
    Reachable numLavori numWorker finalInOrder ∧ Stuck numLavori numWorker finalInOrder ∧
    finalInOrder.workers = [.exited, .exited, .exited] :=
  ⟨⟨scheduleInOrder, by decide⟩, finalInOrder_stuck,
    ((workerPool_graceful_drain finalInOrder ⟨scheduleInOrder, by decide⟩).2.2.1
      finalInOrder_stuck).2.2.2.2⟩

/-- C6. Close discipline: in every reachable state of the worker pool of the
code no panic has happened and no step leads to one, so no send on and no
close of a closed channel is ever attempted; `close(lavori)` has succeeded at
most once; `lavori` is closed only with all five jobs submitted and is still
open whenever `main` is about to submit or to close; and `risultati` was
never closed. -/
theorem workerPool_close_discipline (s : State) (h : Reachable numLavori numWorker s) :
    s.fault = false ∧
    (∀ a s', step numLavori numWorker a s = some s' → s'.fault = false) ∧
    s.lavori.closes ≤ 1 ∧
    (s.lavori.closed = true ↔ s.lavori.closes = 1) ∧
    (s.lavori.closed = true → s.lavori.log = [1, 2, 3, 4, 5]) ∧
    (s.main = .closing → s.lavori.log = [1, 2, 3, 4, 5] ∧ s.lavori.closed = false) ∧
    (∀ j, s.main = .submit j → s.lavori.closed = false) ∧
    s.risultati.closed = false ∧ s.risultati.closes = 0 := by
  have hinv := pool_inv_of_reachable _ _ s h
  have hstep : ∀ a s', step numLavori numWorker a s = some s' → s'.fault = false :=
    fun a s' hs => (pool_inv_step _ _ a s s' hinv hs).1
  obtain ⟨hf, -, -, hRcl, hRcs, hmain, -, -⟩ := hinv
  have h5 : jobsUpTo numLavori = [1, 2, 3, 4, 5] := jobsUpTo_five
  refine ⟨hf, hstep, ?_, ?_, ?_, ?_, ?_, hRcl, hRcs⟩ <;>
    cases hm : s.main <;> simp only [MainOK, hm] at hmain <;> simp_all

/-- The final state of the swapped schedule: closed, with all five jobs
submitted. -/
theorem workerPool_close_discipline_witness :
    Reachable numLavori numWorker finalSwapped ∧ finalSwapped.lavori.closed = true ∧
    finalSwapped.lavori.log = [1, 2, 3, 4, 5] :=
  ⟨⟨scheduleSwapped, by decide⟩, rfl,
    (workerPool_close_discipline finalSwapped ⟨scheduleSwapped, by decide⟩).2.2.2.2.1 rfl⟩

/-- C7. Queue capacity suffices: in every reachable state of the worker pool
of the code both queues have capacity five and hold at most five items;
whenever `main` is about to submit a job the job queue holds fewer than five
and the send goes through, and whenever a worker is about to publish the
results queue holds fewer than five and the send goes through. -/
theorem workerPool_sends_never_block (s : State) (h : Reachable numLavori numWorker s) :
    s.lavori.cap = 5 ∧ s.risultati.cap = 5 ∧
    s.lavori.buf.length ≤ 5 ∧ s.risultati.buf.length ≤ 5 ∧
    (∀ j, s.main = .submit j → j ≤ 5 →
      s.lavori.buf.length < 5 ∧ ∃ c, s.lavori.send (j : Int) = .ok c) ∧
    (∀ (k : Nat) (v : Int), s.workers[k]? = some (WorkerPc.publishing v) →
      s.risultati.buf.length < 5 ∧ ∃ c, s.risultati.send (workFn v) = .ok c) := by
  have hinv := pool_inv_of_reachable _ _ s h
  obtain ⟨-, hcapL, hcapR, hRcl, -, hmain, ⟨c, pj, hflow⟩, -⟩ := hinv
  obtain ⟨h1, h2, h3, h4⟩ := flow_counts hmain hflow
  have hL : s.lavori.cap = 5 := hcapL
  have hR : s.risultati.cap = 5 := hcapR
  have h2' : c + s.lavori.buf.length ≤ 5 := h2
  refine ⟨hL, hR, by omega, by omega, ?_, ?_⟩
  · intro j hm hj
    have hroom := submit_room (pool_inv_of_reachable _ _ s h) hm hj
    simp only [MainOK, hm] at hmain
    have hc := hmain.2.2.2.2.1
    exact ⟨by omega, by simp [Chan.send, hc, hroom]⟩
  · intro k v hw
    have hroom := publish_room (pool_inv_of_reachable _ _ s h) hw
    exact ⟨by omega, by simp [Chan.send, hRcl, hroom]⟩

/-- The middle state, where the second worker is about to publish. -/
theorem workerPool_sends_never_block_witness :
    Reachable numLavori numWorker stateMid ∧
    stateMid.workers[1]? = some (WorkerPc.publishing 2) ∧
    stateMid.risultati.buf.length < 5 :=
  ⟨⟨scheduleMid, by decide⟩, rfl,
    ((workerPool_sends_never_block stateMid ⟨scheduleMid, by decide⟩).2.2.2.2.2 1 2 rfl).1⟩

/-- C8. Result arrival order is not determined and not tied to submission
order: two executions of the worker pool of the code run to the end and `main`
receives the results in different orders, one of them `4, 2, 6, 8, 10`, which
is not the submission order `2, 4, 6, 8, 10`. -/
theorem workerPool_order_nondeterministic :
    ∃ s₁ s₂, Reachable numLavori numWorker s₁ ∧ Reachable numLavori numWorker s₂ ∧
      s₁.main = .returned ∧ s₂.main = .returned ∧
      s₁.received = [2, 4, 6, 8, 10] ∧ s₂.received = [4, 2, 6, 8, 10] ∧
      s₁.received ≠ s₂.received :=
  ⟨finalInOrder, finalSwapped, ⟨scheduleInOrder, by decide⟩, ⟨scheduleSwapped, by decide⟩,
    rfl, rfl, rfl, rfl, by decide⟩

/-- C10. Result order is constrained by the pool size and the first-in
first-out claiming: in every reachable state of the worker pool of the code
the value at position `p` of `risultati` (counting from zero, over everything
ever sent), and so the value `main` received at position `p`, is the result
`2 * k` of a job `k` of `1..5` with `k ≤ p + 3`, that is, at least `k - 3`
results precede it.  Hence the first result received is 2, 4 or 6, never 8 or
10, the second is never 10, and the order `8, 2, 4, 6, 10` never arrives. -/
theorem workerPool_order_constraint (s : State) (h : Reachable numLavori numWorker s) :
    (∀ (p : Nat) (r : Int), s.risultati.log[p]? = some r →
      ∃ k : Int, 1 ≤ k ∧ k ≤ 5 ∧ r = 2 * k ∧ k ≤ (p : Int) + 3) ∧
    (∀ (p : Nat) (r : Int), s.received[p]? = some r →
      ∃ k : Int, 1 ≤ k ∧ k ≤ 5 ∧ r = 2 * k ∧ k ≤ (p : Int) + 3) ∧
    (∀ r : Int, s.received[0]? = some r → r = 2 ∨ r = 4 ∨ r = 6) ∧
    s.received[0]? ≠ some 8 ∧ s.received[0]? ≠ some 10 ∧ s.received[1]? ≠ some 10 ∧
    s.received ≠ [8, 2, 4, 6, 10] := by
  have hinv := pool_inv_of_reachable _ _ s h
  have hlog : ∀ (p : Nat) (r : Int), s.risultati.log[p]? = some r →
      ∃ k : Int, 1 ≤ k ∧ k ≤ 5 ∧ r = 2 * k ∧ k ≤ (p : Int) + 3 :=
    fun p r hr => result_order numLavori numWorker (by decide) s hinv p r hr
  have hrec : ∀ (p : Nat) (r : Int), s.received[p]? = some r →
      ∃ k : Int, 1 ≤ k ∧ k ≤ 5 ∧ r = 2 * k ∧ k ≤ (p : Int) + 3 :=
    fun p r hr => hlog p r (received_in_log hinv hr)
  refine ⟨hlog, hrec, ?_, ?_, ?_, ?_, ?_⟩
  · intro r hr
    obtain ⟨k, hk1, hk2, rfl, hk3⟩ := hrec 0 r hr
    simp only [Nat.cast_zero] at hk3
    omega
  · intro hr
    obtain ⟨k, hk1, hk2, hk, hk3⟩ := hrec 0 8 hr
    simp only [Nat.cast_zero] at hk3
    omega
  · intro hr
    obtain ⟨k, hk1, hk2, hk, hk3⟩ := hrec 0 10 hr
    simp only [Nat.cast_zero] at hk3
    omega
  · intro hr
    obtain ⟨k, hk1, hk2, hk, hk3⟩ := hrec 1 10 hr
    simp only [Nat.cast_one] at hk3
    omega
  · intro heq
    obtain ⟨k, hk1, hk2, hk, hk3⟩ := hrec 0 8 (by rw [heq]; rfl)
    simp only [Nat.cast_zero] at hk3
    omega

/-- The final state of the swapped schedule, whose first result is 4. -/
theorem workerPool_order_constraint_witness :
    Reachable numLavori numWorker finalSwapped ∧
    finalSwapped.received[0]? ≠ some 8 :=
  ⟨⟨scheduleSwapped, by decide⟩,
    (workerPool_order_constraint finalSwapped ⟨scheduleSwapped, by decide⟩).2.2.2.1⟩

end WorkersPool
